import Mathlib

/-!
Verification of the alba-to-nwpublisher conversion pipeline.

This file gives a shallow embedding, in Lean 4, of the core record
transformation implemented in `src/alba2nwpublisher/convert.py` and
`src/alba2nwpublisher/utils.py` of the repository, together with theorems
settling the specified behavioural claims about that code.

Modelling conventions:
* Python strings are modelled as `List Char` (`Str` below).
* A cell of a table is a `CellVal`: absent (None or NaN), a string, an
  integer, or a float of exact integral value (the only floats the code
  treats specially).  Non-integral floats are not needed by any theorem.
* Python character case mappings (`str.upper`, `str.lower`, `str.isupper`)
  are modelled exactly on the ASCII range and on the one non-ASCII
  character needed by a counterexample below, LATIN SMALL LETTER SHARP S
  (U+00DF), whose Python uppercase form is the two-character string SS.
  All remaining characters, over which no theorem in this file quantifies,
  are left fixed by the modelled case maps.
* Python regular expressions are modelled by the equivalent explicit
  string recursions; the character class of the regex \s (Python Unicode
  whitespace) is `pyIsSpace`, and \d and [0-9] are modelled as the ASCII
  digits (the theorems below quantify only over ASCII digit data).
-/

/-- Python strings are modelled as lists of characters. -/
abbrev Str := List Char

/-- The apostrophe character (U+0027). -/
def aposChar : Char := Char.ofNat 39

/-- Python whitespace test: the character class of the regex \s and of
str.isspace and str.strip, expressed on code points. -/
def pyIsSpace (c : Char) : Bool :=
  let n := c.toNat
  (9 ≤ n && n ≤ 13) || n = 32 || (28 ≤ n && n ≤ 31) || n = 133 || n = 160 ||
  n = 5760 || (8192 ≤ n && n ≤ 8202) || n = 8232 || n = 8233 || n = 8239 ||
  n = 8287 || n = 12288

/-- ASCII decimal digit test, the class [0-9] of the source regexes. -/
def isAsciiDigit (c : Char) : Bool := 48 ≤ c.toNat && c.toNat ≤ 57

/-- ASCII lowercase letter test. -/
def isAsciiLowerAlpha (c : Char) : Bool := 97 ≤ c.toNat && c.toNat ≤ 122

/-- ASCII uppercase letter test. -/
def isAsciiUpperAlpha (c : Char) : Bool := 65 ≤ c.toNat && c.toNat ≤ 90

/-- LATIN SMALL LETTER SHARP S (U+00DF), the one modelled character whose
Python uppercase form has two characters. -/
def eszett : Char := Char.ofNat 223

/-- Cased characters of the modelled case maps: ASCII letters and U+00DF. -/
def isCasedCh (c : Char) : Bool :=
  isAsciiLowerAlpha c || isAsciiUpperAlpha c || c = eszett

/-- Uppercase test for a single character in the modelled range
(U+00DF is a lowercase letter in Unicode). -/
def isUpperCh (c : Char) : Bool := isAsciiUpperAlpha c

/-- Single-character uppercase map on the ASCII range, identity elsewhere. -/
def asciiUpperCh (c : Char) : Char :=
  if isAsciiLowerAlpha c then Char.ofNat (c.toNat - 32) else c

/-- Single-character lowercase map on the ASCII range, identity elsewhere;
this models Python str.lower character-wise. -/
def pyLowerChar (c : Char) : Char :=
  if isAsciiUpperAlpha c then Char.ofNat (c.toNat + 32) else c

/-- Python uppercase of one character, as a string: U+00DF uppercases to
the two-character string SS, ASCII lowercase letters to their uppercase
forms, everything else in the modelled range is fixed. -/
def pyUpperChar (c : Char) : Str :=
  if c = eszett then [Char.ofNat 83, Char.ofNat 83] else [asciiUpperCh c]

/-- Python str.strip with no argument: drop Unicode whitespace from both
ends of the string. -/
def pyStrip (s : Str) : Str :=
  ((s.dropWhile pyIsSpace).reverse.dropWhile pyIsSpace).reverse

/-- Python s.rstrip with a period argument: drop trailing periods. -/
def rstripDot (s : Str) : Str :=
  (s.reverse.dropWhile (fun c => c.toNat = 46)).reverse

/-- Python str.lower of a whole string, character-wise in the modelled
range. -/
def pyLowerStr (s : Str) : Str := s.map pyLowerChar

/-- Python str.isupper: at least one cased character, and every cased
character uppercase. -/
def pyIsUpperStr (s : Str) : Bool :=
  s.any isCasedCh && s.all (fun c => !isCasedCh c || isUpperCh c)

/-- One cell of a table: absent (None/NaN), a string, an integer, or a
float carrying an exact integer value n (printed by Python as n.0). -/
inductive CellVal where
  | none : CellVal
  | str : Str → CellVal
  | intv : Int → CellVal
  | floatInt : Int → CellVal
deriving DecidableEq, Repr

/-- Decimal digit characters of a natural number, via Nat.repr. -/
def natRepr (n : Nat) : Str := (Nat.repr n).data

/-- Python str() of an integer. -/
def intRepr (n : Int) : Str :=
  if n < 0 then Char.ofNat 45 :: natRepr n.natAbs else natRepr n.natAbs

/-- Python str() of a cell value, as used by astype(str): strings are kept,
integers print in decimal, an integral float n.0 prints with a trailing
".0".  The absent case is never consulted by the code modelled here (it is
always guarded by an isna test first); it is rendered as the empty string. -/
def pyStr : CellVal → Str
  | CellVal.none => []
  | CellVal.str s => s
  | CellVal.intv n => intRepr n
  | CellVal.floatInt n => intRepr n ++ [Char.ofNat 46, Char.ofNat 48]

/-- Numeric value of a string of ASCII digits. -/
def digitsToNat (s : Str) : Nat :=
  s.foldl (fun a c => a * 10 + (c.toNat - 48)) 0

/-!
Address splitter: `_parse_address_field` of utils.py (lines 39-68).
-/

/-- Characters allowed after the leading digits of a street-number token,
the regex class of letters, digits, hyphen and slash on line 56 of
utils.py. -/
def isTokChar (c : Char) : Bool :=
  isAsciiDigit c || isAsciiLowerAlpha c || isAsciiUpperAlpha c ||
  c.toNat = 45 || c.toNat = 47

/-- The anchored regex match of line 52 of utils.py, one or more digits
followed by exactly ".0": true iff the string has that shape. -/
def matchIntDotZero (s : Str) : Bool :=
  let ds := s.takeWhile isAsciiDigit
  let r := s.dropWhile isAsciiDigit
  decide (ds ≠ []) && decide (r = [Char.ofNat 46, Char.ofNat 48])

/-- The anchored regex match of line 62 of utils.py: one or more digits
with an optional suffix of a period followed by one or more zeros. -/
def matchNumOptDotZeros (t : Str) : Bool :=
  let ds := t.takeWhile isAsciiDigit
  let r := t.dropWhile isAsciiDigit
  decide (ds ≠ []) &&
    (decide (r = []) ||
      (decide (r.head? = some (Char.ofNat 46)) && decide (r.tail ≠ []) &&
        r.tail.all (fun c => c.toNat = 48)))

/-- Python str(int(float(t))) for a string t matching `matchNumOptDotZeros`:
the decimal rendering of the numeric value of the leading digits.  The
source routes the conversion through a binary double; that round trip is
exact for values below 2^53, so the theorems below that rely on this
definition restrict the digit count to at most fifteen. -/
def strIntFloat (t : Str) : Str := natRepr (digitsToNat (t.takeWhile isAsciiDigit))

/-- The leading-number match of line 56 of utils.py, under the Python
leftmost-greedy semantics of the anchored pattern "one or more digits,
then any token characters, then one or more whitespace, then the rest"
on a string with no trailing whitespace: after skipping leading whitespace
the first character must be an ASCII digit; the token is the maximal run of
token characters from there; at least one whitespace character must follow;
the remainder (after the maximal whitespace run) must contain no newline,
since the dot of the regex does not match newlines.  Returns the token and
the remainder on success. -/
def leadNumSplit (s : Str) : Option (Str × Str) :=
  let s1 := s.dropWhile pyIsSpace
  match s1.head? with
  | some c =>
    if isAsciiDigit c then
      let tok := s1.takeWhile isTokChar
      let r0 := s1.dropWhile isTokChar
      let ws := r0.takeWhile pyIsSpace
      let rest := r0.dropWhile pyIsSpace
      if decide (ws ≠ []) && rest.all (fun ch => ch.toNat ≠ 10) then
        some (tok, rest)
      else none
    else none
  | none => none

/-- The address splitter `_parse_address_field` (utils.py lines 39-68): an
absent address yields (absent, absent); otherwise the trimmed string,
after undoing a spreadsheet "N.0" artifact, is split into a leading number
token and the street remainder when the regex of line 56 matches, with the
number normalised through integer conversion when it is purely numeric;
when the regex does not match, the whole string becomes the street. -/
def parse_address_field (addr : Option Str) : Option Str × Option Str :=
  match addr with
  | Option.none => (Option.none, Option.none)
  | Option.some a =>
    let s0 := pyStrip a
    let s := if matchIntDotZero s0 then s0.dropLast.dropLast else s0
    match leadNumSplit s with
    | Option.some (tok, rest) =>
      let number0 := pyStrip tok
      let street := rstripDot (pyStrip rest)
      let number :=
        if matchNumOptDotZeros number0 then strIntFloat number0 else number0
      (Option.some number, Option.some street)
    | Option.none => (Option.none, Option.some (rstripDot s))

/-!
Phone normaliser: `_format_phone_to_north_american` of utils.py
(lines 71-101).
-/

/-- The string the phone normaliser works on, for a non-absent cell: an
integral float x gives str(int(x)); any other value gives str(x).strip()
(for an integer the strip is vacuous). -/
def phoneStrOf : CellVal → Str
  | CellVal.none => []
  | CellVal.str t => pyStrip t
  | CellVal.intv n => pyStrip (intRepr n)
  | CellVal.floatInt n => intRepr n

/-- The 3-3-4 hyphenated rendering of a ten-digit string, the f-string of
lines 95 and 99 of utils.py (slices [0:3], [3:6], [6:10]). -/
def fmt334 (d : Str) : Str :=
  d.take 3 ++ [Char.ofNat 45] ++ ((d.drop 3).take 3) ++ [Char.ofNat 45] ++
    ((d.drop 6).take 4)

/-- The phone normaliser `_format_phone_to_north_american` (utils.py lines
71-101): absent to absent; a string starting with a plus sign is returned
unchanged; otherwise the non-digits are stripped and a 10-digit string, or
an 11-digit string led by 1, is hyphenated 3-3-4; anything else is the
trimmed input, or absent when that is empty. -/
def format_phone_to_north_american (v : CellVal) : Option Str :=
  match v with
  | CellVal.none => Option.none
  | _ =>
    let s := phoneStrOf v
    if s.head? = some (Char.ofNat 43) then Option.some s
    else
      let digits := s.filter isAsciiDigit
      if digits.length = 10 then Option.some (fmt334 digits)
      else if digits.length = 11 && digits.head? = some (Char.ofNat 49) then
        Option.some (fmt334 digits.tail)
      else if decide (s ≠ []) then Option.some s else Option.none

/-!
Text casing normaliser: `_title_case_safe` of utils.py (lines 104-190).
-/

/-- Hyphen or slash, the separator class kept by the inner splits of
`_title_case_safe`. -/
def isDashSlash (c : Char) : Bool := c.toNat = 45 || c.toNat = 47

/-- The apostrophe separator test of the outer split. -/
def isAposChar (c : Char) : Bool := c.toNat = 39

/-- The Python test "sp in ..." against the two-character string
hyphen-slash is a substring test, true exactly for the empty string,
the hyphen, the slash, and the string hyphen-slash. -/
def inDashSlashStr (sp : Str) : Bool :=
  decide (sp = []) || decide (sp = [Char.ofNat 45]) ||
  decide (sp = [Char.ofNat 47]) || decide (sp = [Char.ofNat 45, Char.ofNat 47])

/-- Python re.split with a capturing single-character class: the segments
between separator characters (possibly empty), with each separator kept as
a singleton element.  The result always starts and ends with a segment. -/
def splitKeep (isSep : Char → Bool) : Str → List Str
  | [] => [[]]
  | c :: cs =>
    if isSep c then [] :: [c] :: splitKeep isSep cs
    else
      match splitKeep isSep cs with
      | [] => [[c]]
      | t :: ts => (c :: t) :: ts

/-- The helper cap_segment of utils.py (lines 125-134): keep an
all-uppercase segment (the length test of the source is subsumed by the
following branch and kept here for fidelity); otherwise uppercase the
first character and lowercase the rest. -/
def cap_segment (seg : Str) : Str :=
  if pyIsUpperStr seg && decide (seg.length ≤ 3) then seg
  else if pyIsUpperStr seg then seg
  else
    match seg with
    | [] => []
    | c :: rest => pyUpperChar c ++ rest.map pyLowerChar

/-- The capitalisation applied to the part after an apostrophe (utils.py
lines 163-164): split on hyphen and slash, keep separators, cap_segment
the segments. -/
def capApos (sub : Str) : Str :=
  ((splitKeep isDashSlash sub).map
    (fun sp => if inDashSlashStr sp then sp else cap_segment sp)).flatten

/-- One sub-part of a non-apostrophe part (utils.py lines 176-184):
separators and short acronyms kept, other segments capitalised. -/
def capPart (sp : Str) : Str :=
  if inDashSlashStr sp then sp
  else if pyIsUpperStr sp && decide (sp.length ≤ 3) then sp
  else cap_segment sp

/-- The capitalisation applied to a non-apostrophe part (utils.py lines
173-185): as capApos, with a redundant short-acronym test kept from the
source. -/
def capNonApos (part : Str) : Str :=
  ((splitKeep isDashSlash part).map capPart).flatten

/-- The while loop of utils.py lines 148-186 over the apostrophe-split
parts of a token: an apostrophe followed by a part lowering to the letter
s becomes a possessive, an apostrophe followed by a non-empty part
capitalises that part, a trailing or doubled apostrophe is kept, and any
other part is capitalised as a plain part. -/
def processAposParts : List Str → Str
  | [] => []
  | [p] => if p = [aposChar] then [aposChar] else capNonApos p
  | p :: next :: rest2 =>
    if p = [aposChar] then
      if pyLowerStr next = [Char.ofNat 115] then
        aposChar :: Char.ofNat 115 :: processAposParts rest2
      else if decide (next ≠ []) then
        (aposChar :: capApos next) ++ processAposParts rest2
      else aposChar :: processAposParts (next :: rest2)
    else capNonApos p ++ processAposParts (next :: rest2)

/-- Python token.isspace(): non-empty and all whitespace. -/
def pyIsSpaceStr (t : Str) : Bool := decide (t ≠ []) && t.all pyIsSpace

/-- One token of the whitespace split: whitespace runs pass through,
other tokens go through the apostrophe machinery. -/
def procToken (t : Str) : Str :=
  if pyIsSpaceStr t then t else processAposParts (splitKeep isAposChar t)

/-- The split of utils.py line 137 into maximal runs that are alternately
whitespace and non-whitespace, both kept.  On a stripped non-empty string
this agrees with the capturing re.split of the source. -/
def groupRuns : Str → List Str
  | [] => []
  | [c] => [[c]]
  | a :: b :: rest =>
    match groupRuns (b :: rest) with
    | [] => [[a]]
    | t :: ts =>
      if pyIsSpace a = pyIsSpace b then (a :: t) :: ts else [a] :: t :: ts

/-- The string body of `_title_case_safe` (utils.py lines 120-190): strip,
return the empty string as is, otherwise process the whitespace runs and
tokens in order and reassemble. -/
def title_case_safe (x : Str) : Str :=
  let s := pyStrip x
  if s = [] then s
  else ((groupRuns s).map procToken).flatten

/-- `_title_case_safe` on a cell: None, NaN and non-string values pass
through unchanged (utils.py lines 113-118). -/
def titleCaseCell : CellVal → CellVal
  | CellVal.str s => CellVal.str (title_case_safe s)
  | v => v

/-!
Column resolution: `_norm_col_name`, `_build_col_map`, `_get_col` of
utils.py (lines 10-29).
-/

/-- Conversion of a Lean string literal to the modelled string type. -/
def strLit (s : String) : Str := s.data

/-- The normaliser `_norm_col_name`: strip, delete every whitespace and
underscore character, lowercase. -/
def norm_col_name (s : Str) : Str :=
  pyLowerStr ((pyStrip s).filter (fun c => !(pyIsSpace c || c.toNat = 95)))

/-- Insertion into a Python dict modelled as an association list in
insertion order: an existing key keeps its position and takes the new
value, a new key is appended. -/
def dictInsert (m : List (Str × Str)) (k v : Str) : List (Str × Str) :=
  if m.any (fun p => decide (p.1 = k)) then
    m.map (fun p => if p.1 = k then (k, v) else p)
  else m ++ [(k, v)]

/-- The dict comprehension of `_build_col_map`: map each normalised column
name to the column, iterating the columns in table order, so that a later
column overwrites an earlier one with the same normalised name. -/
def build_col_map (cols : List Str) : List (Str × Str) :=
  cols.foldl (fun m c => dictInsert m (norm_col_name c) c) []

/-- Python dict .get on the modelled dict. -/
def dictGet (m : List (Str × Str)) (k : Str) : Option Str :=
  (m.find? (fun p => decide (p.1 = k))).map Prod.snd

/-- The resolver `_get_col`: the actual column of the table whose
normalised name matches the normalised requested name, if any. -/
def get_col (cols : List Str) (name : Str) : Option Str :=
  dictGet (build_col_map cols) (norm_col_name name)

/-!
Record transformer: `transform_to_nwp` of convert.py (lines 63-176).
-/

/-- The 24 required logical source columns (convert.py lines 23-28). -/
def REQUIRED_ORIGINAL_COLUMNS : List Str :=
  [strLit "Address_ID", strLit "Territory_ID", strLit "Language",
   strLit "Status", strLit "Name", strLit "Suite", strLit "Address",
   strLit "City", strLit "Province", strLit "Postal_code",
   strLit "Country", strLit "Latitude", strLit "Longitude",
   strLit "Telephone", strLit "Owner", strLit "Notes",
   strLit "Notes_private", strLit "Account", strLit "Created",
   strLit "Modified", strLit "Contacted", strLit "Geocoded",
   strLit "Territory_number", strLit "Territory_description"]

/-- The target schema columns, in declared order (convert.py lines
30-35). -/
def TARGET_COLUMNS : List Str :=
  [strLit "TerritoryID", strLit "TerritoryNumber", strLit "CategoryCode",
   strLit "Category", strLit "TerritoryAddressID",
   strLit "ApartmentNumber", strLit "Number", strLit "Street",
   strLit "Suburb", strLit "PostalCode", strLit "State", strLit "Name",
   strLit "Phone", strLit "Type", strLit "Status",
   strLit "NotHomeAttempt", strLit "Date1", strLit "Date2",
   strLit "Date3", strLit "Date4", strLit "Date5", strLit "Language",
   strLit "Latitude", strLit "Longitude", strLit "Notes",
   strLit "NotesFromPublisher"]

/-- A source table: the column names, and the rows as cell lists aligned
with the columns. -/
structure SrcTable where
  cols : List Str
  rows : List (List CellVal)

/-- An output record: an ordered association of target field names to
values, the row of a pandas DataFrame with its column layout. -/
abbrev OutRow := List (Str × CellVal)

/-- The cell of a row under an actual column name. -/
def rowCell (cols : List Str) (row : List CellVal) (c : Str) : CellVal :=
  match cols.findIdx? (fun x => decide (x = c)) with
  | some i => row.getD i CellVal.none
  | none => CellVal.none

/-- The cell of a row under a logical column name, resolved with
`get_col` as done throughout transform_to_nwp (convert.py lines 84-94 and
the accesses below them).  An unresolvable column reads as absent; after
validation every required column is resolvable. -/
def getCell (cols : List Str) (row : List CellVal) (name : Str) : CellVal :=
  match get_col cols name with
  | some c => rowCell cols row c
  | none => CellVal.none

/-- The value of a field of an output record. -/
def fieldVal (r : OutRow) (c : Str) : CellVal :=
  ((r.find? (fun p => decide (p.1 = c))).map Prod.snd).getD CellVal.none

/-- An option-valued string as a cell. -/
def optCell : Option Str → CellVal
  | Option.none => CellVal.none
  | Option.some s => CellVal.str s

/-- The mapping step of transform_to_nwp (convert.py lines 96-144) for one
source row: parse the address into number and street, normalise the phone,
copy the directly mapped fields, leave the reserved fields absent, and
apply the casing normaliser to the columns listed on line 140 (of which
Category, CategoryCode, Type and Status are absent, and absent passes
through the normaliser unchanged). -/
def mapRow (cols : List Str) (row : List CellVal) : OutRow :=
  let addrCell := getCell cols row (strLit "Address")
  let addr : Option Str :=
    if addrCell = CellVal.none then Option.none else Option.some (pyStr addrCell)
  let parsed := parse_address_field addr
  [(strLit "TerritoryID", CellVal.none),
   (strLit "TerritoryNumber", CellVal.none),
   (strLit "CategoryCode", CellVal.none),
   (strLit "Category", CellVal.none),
   (strLit "TerritoryAddressID", CellVal.none),
   (strLit "ApartmentNumber", titleCaseCell (getCell cols row (strLit "Suite"))),
   (strLit "Number", optCell parsed.1),
   (strLit "Street", titleCaseCell (optCell parsed.2)),
   (strLit "Suburb", titleCaseCell (getCell cols row (strLit "City"))),
   (strLit "PostalCode", getCell cols row (strLit "Postal_code")),
   (strLit "State", titleCaseCell (getCell cols row (strLit "Province"))),
   (strLit "Name", titleCaseCell (getCell cols row (strLit "Name"))),
   (strLit "Phone", optCell (format_phone_to_north_american (getCell cols row (strLit "Telephone")))),
   (strLit "Type", CellVal.none),
   (strLit "Status", CellVal.none),
   (strLit "NotHomeAttempt", CellVal.none),
   (strLit "Date1", CellVal.none),
   (strLit "Date2", CellVal.none),
   (strLit "Date3", CellVal.none),
   (strLit "Date4", CellVal.none),
   (strLit "Date5", CellVal.none),
   (strLit "Language", getCell cols row (strLit "Language")),
   (strLit "Latitude", getCell cols row (strLit "Latitude")),
   (strLit "Longitude", getCell cols row (strLit "Longitude")),
   (strLit "Notes", getCell cols row (strLit "Notes")),
   (strLit "NotesFromPublisher", CellVal.none)]

/-- The five primary columns used for sorting and deduplication
(convert.py line 147). -/
def primaryCols : List Str :=
  [strLit "Street", strLit "Number", strLit "ApartmentNumber",
   strLit "Suburb", strLit "State"]

/-- The sort key of one output record (convert.py lines 150-153): for each
primary column, str() of the value with absent replaced by the empty
string, exactly the astype(str).where(notna, empty) construction. -/
def keyOf (r : OutRow) : List Str :=
  primaryCols.map (fun c =>
    let v := fieldVal r c
    if v = CellVal.none then [] else pyStr v)

/-- Code-point comparison of two modelled strings, the Python string
less-than. -/
def strLtB : Str → Str → Bool
  | [], [] => false
  | [], _ :: _ => true
  | _ :: _, [] => false
  | a :: as, b :: bs =>
    if a.toNat < b.toNat then true
    else if b.toNat < a.toNat then false
    else strLtB as bs

/-- Lexicographic comparison of key tuples, the pandas multi-column
ascending sort order. -/
def keysLeB : List Str → List Str → Bool
  | [], _ => true
  | _ :: _, [] => false
  | a :: as, b :: bs =>
    if strLtB a b then true
    else if strLtB b a then false
    else keysLeB as bs

/-- The sort relation on output records. -/
def rowLe (r1 r2 : OutRow) : Bool := keysLeB (keyOf r1) (keyOf r2)

/-- The sort relation as a proposition. -/
def RowLeP (r1 r2 : OutRow) : Prop := rowLe r1 r2 = true

instance : DecidableRel RowLeP := fun a b => decEq (rowLe a b) true

/-- The sort of convert.py lines 155-161, modelled as a stable insertion
sort ascending by the key tuples.  pandas sort_values with the default
kind leaves the order of tied keys unspecified; no claim below depends on
the order of ties.  The source skips the sort for an empty table, which
sorts to itself anyway. -/
def sortRows (rows : List OutRow) : List OutRow := List.insertionSort RowLeP rows

/-- The deduplication tuple: the values (not the stringified sort keys) of
the five primary columns, compared by drop_duplicates. -/
def keyVals (r : OutRow) : List CellVal := primaryCols.map (fieldVal r)

/-- drop_duplicates with keep first (convert.py line 164): keep a record
iff its primary tuple has not been seen earlier in the list. -/
def dedupAux (seen : List (List CellVal)) : List OutRow → List OutRow
  | [] => []
  | r :: rs =>
    if keyVals r ∈ seen then dedupAux seen rs
    else r :: dedupAux (keyVals r :: seen) rs

/-- Deduplication of a whole list of records. -/
def dedupRows (rows : List OutRow) : List OutRow := dedupAux [] rows

/-- The transformer `transform_to_nwp` (convert.py lines 63-176): validate
the required columns, collecting every missing one in declared order and
failing with that list when non-empty; otherwise map, sort and
deduplicate.  The final reindexing of lines 166-174 only re-labels the
display index and adds no column, since every target column is present by
construction. -/
def transform_to_nwp (t : SrcTable) : Except (List Str) (List OutRow) :=
  let cmap := build_col_map t.cols
  let missing := REQUIRED_ORIGINAL_COLUMNS.filter
    (fun req => !(cmap.any (fun p => decide (p.1 = norm_col_name req))))
  if missing ≠ [] then Except.error missing
  else Except.ok (dedupRows (sortRows (t.rows.map (mapRow t.cols))))

/-!
Concrete tables used by witnesses and counterexamples.
-/

/-- A source row of 24 absent cells, aligned with
REQUIRED_ORIGINAL_COLUMNS as the column list. -/
def exRow0 : List CellVal := List.replicate 24 CellVal.none

/-- A row whose Address (column index 6) is the string Main St. -/
def exRowB : List CellVal := exRow0.set 6 (CellVal.str (strLit "Main St"))

/-- A row with the same Address and a Name (column index 4), a duplicate
of exRowB on every primary field. -/
def exRowC : List CellVal :=
  (exRow0.set 6 (CellVal.str (strLit "Main St"))).set 4
    (CellVal.str (strLit "Bob"))

/-- A three-row table over exactly the required columns: two rows sharing
all primary fields and one all-absent row. -/
def exTable : SrcTable :=
  SrcTable.mk REQUIRED_ORIGINAL_COLUMNS [exRowB, exRowC, exRow0]

/-- The transformed output of exTable. -/
def exOut : List OutRow := ((transform_to_nwp exTable).toOption).getD []

/-- The required columns with Address removed, plus an unrelated column:
a table failing validation on exactly one name. -/
def exTableMissingAddress : SrcTable :=
  SrcTable.mk
    (REQUIRED_ORIGINAL_COLUMNS.filter (fun c => decide (c ≠ strLit "Address")))
    []

/-- The whitespace runs of a string, in order: the whitespace elements of
its run decomposition. -/
def wsRuns (s : Str) : List Str := (groupRuns s).filter pyIsSpaceStr

/-- The normalised tail form of the apostrophe processing: the part after
an apostrophe becomes the literal letter s when it lowers to s, and is
otherwise capitalised like any part. -/
def apSeg (s : Str) : Str :=
  if pyLowerStr s = [Char.ofNat 115] then [Char.ofNat 115] else capApos s

/-- The normal form of the processed tail of an apostrophe split:
separators kept, each following segment sent through apSeg. -/
def procTailNF : List Str → List Str
  | [] => []
  | [x] => [x]
  | c :: s :: rest => c :: apSeg s :: procTailNF rest

/-- Well-formedness of the tail of a splitKeep result: alternating
singleton separators and separator-free segments, starting with a
separator. -/
inductive AltTail (p : Char → Bool) : List Str → Prop where
  | nil : AltTail p []
  | cons (c : Char) (s : Str) (rest : List Str) (hc : p c = true)
      (hs : ∀ x ∈ s, p x = false) (h : AltTail p rest) :
      AltTail p ([c] :: s :: rest)

/-- Well-formedness of a run decomposition: non-empty runs, homogeneous in
the whitespace class, alternating classes, first run of class b. -/
inductive Runs : Bool → List Str → Prop where
  | nil (b : Bool) : Runs b []
  | cons (b : Bool) (r : Str) (rest : List Str) (hne : r ≠ [])
      (hall : ∀ c ∈ r, pyIsSpace c = b) (h : Runs (!b) rest) :
      Runs b (r :: rest)

/-!
Helper lemmas about characters and string primitives.
-/

theorem char_eq_of_toNat_eq {a b : Char} (h : a.toNat = b.toNat) : a = b := by
  have h2 := congrArg Char.ofNat h
  rwa [Char.ofNat_toNat, Char.ofNat_toNat] at h2

theorem not_space_of_digit {c : Char} (h : isAsciiDigit c = true) :
    pyIsSpace c = false := by
  simp only [isAsciiDigit, Bool.and_eq_true, decide_eq_true_eq] at h
  simp only [pyIsSpace, Bool.or_eq_false_iff, Bool.and_eq_false_iff,
    decide_eq_false_iff_not, not_le]
  omega

theorem not_tok_of_space {c : Char} (h : pyIsSpace c = true) :
    isTokChar c = false := by
  simp only [pyIsSpace, Bool.or_eq_true, Bool.and_eq_true, decide_eq_true_eq] at h
  simp only [isTokChar, isAsciiDigit, isAsciiLowerAlpha, isAsciiUpperAlpha,
    Bool.or_eq_false_iff, Bool.and_eq_false_iff, decide_eq_false_iff_not, not_le]
  omega

theorem tok_of_digit {c : Char} (h : isAsciiDigit c = true) :
    isTokChar c = true := by
  simp only [isTokChar, Bool.or_eq_true]
  exact Or.inl (Or.inl (Or.inl (Or.inl h)))

theorem dropWhile_eq_self_of_head (p : Char → Bool) (s : Str)
    (h : ∀ c, s.head? = some c → p c = false) : s.dropWhile p = s := by
  cases s with
  | nil => rfl
  | cons c cs => simp [List.dropWhile_cons, h c rfl]

theorem pyStrip_eq_self (s : Str)
    (h1 : ∀ c, s.head? = some c → pyIsSpace c = false)
    (h2 : ∀ c, s.getLast? = some c → pyIsSpace c = false) : pyStrip s = s := by
  unfold pyStrip
  rw [dropWhile_eq_self_of_head _ _ h1]
  rw [dropWhile_eq_self_of_head _ _
    (fun c hc => h2 c (by rwa [List.head?_reverse] at hc))]
  exact List.reverse_reverse s

theorem takeWhile_append_all (p : Char → Bool) (xs ys : Str)
    (h : ∀ c ∈ xs, p c = true) :
    (xs ++ ys).takeWhile p = xs ++ ys.takeWhile p := by
  induction xs with
  | nil => rfl
  | cons c cs ih =>
    simp only [List.cons_append, List.takeWhile_cons, h c (List.mem_cons_self c cs)]
    simp [ih (fun x hx => h x (List.mem_cons_of_mem c hx))]

theorem dropWhile_append_all (p : Char → Bool) (xs ys : Str)
    (h : ∀ c ∈ xs, p c = true) :
    (xs ++ ys).dropWhile p = ys.dropWhile p := by
  induction xs with
  | nil => rfl
  | cons c cs ih =>
    simp only [List.cons_append, List.dropWhile_cons, h c (List.mem_cons_self c cs)]
    exact ih (fun x hx => h x (List.mem_cons_of_mem c hx))

/-!
Lemmas about the modelled Python dict and column resolution.
-/

theorem find?_map_overwrite (m : List (Str × Str)) (k v q : Str) (hq : q ≠ k) :
    ((m.map (fun p => if p.1 = k then (k, v) else p)).find?
        (fun p => decide (p.1 = q))) =
      m.find? (fun p => decide (p.1 = q)) := by
  induction m with
  | nil => rfl
  | cons p m ih =>
    by_cases hpk : p.1 = k
    · simp only [List.map_cons, if_pos hpk, List.find?_cons]
      have h1 : (decide ((k, v).1 = q)) = false := by
        simp [decide_eq_false_iff_not]
        exact fun h => hq h.symm
      have h2 : (decide (p.1 = q)) = false := by
        simp [decide_eq_false_iff_not, hpk]
        exact fun h => hq h.symm
      rw [h1, h2]
      exact ih
    · simp only [List.map_cons, if_neg hpk, List.find?_cons]
      by_cases hpq : p.1 = q
      · rw [decide_eq_true hpq]
      · rw [decide_eq_false hpq]
        exact ih

theorem dictGet_dictInsert (m : List (Str × Str)) (k v q : Str) :
    dictGet (dictInsert m k v) q = if q = k then some v else dictGet m q := by
  induction m with
  | nil =>
    by_cases hqk : q = k
    · simp [dictGet, dictInsert, List.find?, hqk]
    · simp only [dictGet, dictInsert, List.any_nil, Bool.false_eq_true,
        if_false, List.nil_append, List.find?,
        decide_eq_false (fun h => hqk (Eq.symm h)), if_neg hqk]
  | cons p m ih =>
    by_cases hpk : p.1 = k
    · have hany : (p :: m).any (fun x => decide (x.1 = k)) = true := by
        simp [List.any_cons, hpk]
      simp only [dictInsert, hany, if_pos, List.map_cons, if_pos hpk]
      by_cases hqk : q = k
      · simp [dictGet, List.find?_cons, hqk]
      · have h1 : (decide ((k, v).1 = q)) = false := by
          simp [decide_eq_false_iff_not]
          exact fun h => hqk h.symm
        have h2 : (decide (p.1 = q)) = false := by
          simp only [decide_eq_false_iff_not, hpk]
          exact fun h => hqk h.symm
        simp only [dictGet, List.find?_cons, h1, h2, if_neg hqk]
        have := find?_map_overwrite m k v q hqk
        simp only [dictGet] at *
        rw [this]
    · by_cases hm : m.any (fun x => decide (x.1 = k)) = true
      · have hany : (p :: m).any (fun x => decide (x.1 = k)) = true := by
          simp [List.any_cons, hm]
        have hins : dictInsert m k v =
            m.map (fun x => if x.1 = k then (k, v) else x) := by
          simp [dictInsert, hm]
        simp only [dictInsert, hany, if_pos, List.map_cons, if_neg hpk]
        by_cases hpq : p.1 = q
        · have hqk : ¬ q = k := fun h => hpk (hpq.trans h)
          simp [dictGet, List.find?_cons, hpq, hqk]
        · simp only [dictGet, List.find?_cons, decide_eq_false hpq]
          have := ih
          rw [hins] at this
          simp only [dictGet] at this
          by_cases hqk : q = k
          · simpa [hqk] using this
          · simp only [if_neg hqk] at this ⊢
            exact this
      · have hany : (p :: m).any (fun x => decide (x.1 = k)) = false := by
          simp only [List.any_cons, Bool.or_eq_false_iff]
          exact ⟨decide_eq_false hpk, Bool.eq_false_iff.mpr hm⟩
        have hins : dictInsert m k v = m ++ [(k, v)] := by
          simp [dictInsert, hm]
        simp only [dictInsert, hany, Bool.false_eq_true, if_false,
          List.cons_append]
        by_cases hpq : p.1 = q
        · have hqk : ¬ q = k := fun h => hpk (hpq.trans h)
          simp [dictGet, List.find?_cons, hpq, hqk]
        · simp only [dictGet, List.find?_cons, decide_eq_false hpq, if_neg]
          have := ih
          rw [hins] at this
          simp only [dictGet] at this
          exact this

theorem build_col_map_append (cols : List Str) (c : Str) :
    build_col_map (cols ++ [c]) =
      dictInsert (build_col_map cols) (norm_col_name c) c := by
  simp [build_col_map, List.foldl_append]

theorem get_col_eq_reverse_find (cols : List Str) (name : Str) :
    get_col cols name =
      cols.reverse.find?
        (fun c => decide (norm_col_name c = norm_col_name name)) := by
  induction cols using List.reverseRecOn with
  | nil => rfl
  | append_singleton xs x ih =>
    unfold get_col
    rw [build_col_map_append, dictGet_dictInsert, List.reverse_append]
    simp only [List.reverse_cons, List.reverse_nil, List.nil_append,
      List.singleton_append, List.find?_cons]
    by_cases h : norm_col_name x = norm_col_name name
    · rw [decide_eq_true h, if_pos h.symm]
    · rw [decide_eq_false h, if_neg (fun hh => h hh.symm)]
      exact ih

theorem get_col_none_iff (cols : List Str) (req : Str) :
    get_col cols req = Option.none ↔
      (build_col_map cols).any
        (fun p => decide (p.1 = norm_col_name req)) = false := by
  unfold get_col dictGet
  rw [Option.map_eq_none']
  constructor
  · intro h
    rw [← Bool.not_eq_true, List.any_eq_true]
    intro ⟨x, hx, hpx⟩
    have := @List.find?_isSome _ (build_col_map cols)
      (fun p => decide (p.1 = norm_col_name req))
    rw [h] at this
    simp only [Option.isSome_none, Bool.false_eq_true, false_iff] at this
    exact this ⟨x, hx, hpx⟩
  · intro h
    cases hf : List.find? (fun p => decide (p.1 = norm_col_name req))
        (build_col_map cols) with
    | none => rfl
    | some x =>
      have hs : (List.find? (fun p => decide (p.1 = norm_col_name req))
          (build_col_map cols)).isSome = true := by rw [hf]; rfl
      rw [List.find?_isSome] at hs
      rw [← Bool.not_eq_true, List.any_eq_true] at h
      exact absurd hs h

/-- C10: when several column names of a table normalise to the same
string, the resolver index maps that normalised name to the last such
column in table order, and resolution returns that column: `get_col` is
the last matching column of the table (the first of the reversed column
list), as witnessed concretely on a table containing both Postal_code and
a lowercase variant of it. -/
theorem C10_resolver_last_wins :
    (∀ (cols : List Str) (name : Str),
      get_col cols name =
        cols.reverse.find?
          (fun c => decide (norm_col_name c = norm_col_name name))) ∧
    get_col [strLit "Postal_code", strLit "postal code"]
        (strLit "Postal_code") = some (strLit "postal code") := by
  refine ⟨get_col_eq_reverse_find, ?_⟩
  decide

/-- C7: the address splitter degrades rather than failing: an absent
address maps to an absent number and an absent street, and an empty
string address maps to an absent number and an empty (present) street.
The modelled splitter is a total function, so no string input can make it
fail. -/
theorem C7_splitter_total_on_anomalies :
    parse_address_field Option.none = (Option.none, Option.none) ∧
    parse_address_field (Option.some []) = (Option.none, Option.some []) := by
  exact ⟨rfl, rfl⟩

/-- C5 counterexample: on the address "142.0 Marrissa Ave." the number
token regex does not match (a period is not a token character and the
".0"-artifact rule of line 52 only applies when the digits span the whole
string), so the splitter returns an absent number and the whole string as
the street, not the number "142" with street "Marrissa Ave" that the
claim predicts for a numeral carrying a ".0" suffix. -/
theorem C5_counterexample :
    parse_address_field (Option.some (strLit "142.0 Marrissa Ave.")) =
      (Option.none, Option.some (strLit "142.0 Marrissa Ave")) ∧
    parse_address_field (Option.some (strLit "142.0 Marrissa Ave.")) ≠
      (Option.some (strLit "142"), Option.some (strLit "Marrissa Ave")) := by
  exact ⟨by decide, by decide⟩

/-- C3: the transformer fails exactly when some required logical column is
unresolvable, and the error payload lists every unresolvable required
column (not only the first), in the declared order of
REQUIRED_ORIGINAL_COLUMNS, that order being preserved by filtering the
declared list. -/
theorem C3_missing_columns (t : SrcTable) :
    (REQUIRED_ORIGINAL_COLUMNS.filter
        (fun r => decide (get_col t.cols r = Option.none)) ≠ [] →
      transform_to_nwp t = Except.error
        (REQUIRED_ORIGINAL_COLUMNS.filter
          (fun r => decide (get_col t.cols r = Option.none)))) ∧
    (REQUIRED_ORIGINAL_COLUMNS.filter
        (fun r => decide (get_col t.cols r = Option.none)) = [] →
      ∀ m, transform_to_nwp t ≠ Except.error m) := by
  have hcong : REQUIRED_ORIGINAL_COLUMNS.filter
      (fun req => !((build_col_map t.cols).any
        (fun p => decide (p.1 = norm_col_name req)))) =
    REQUIRED_ORIGINAL_COLUMNS.filter
      (fun r => decide (get_col t.cols r = Option.none)) := by
    apply List.filter_congr
    intro r _
    rw [Bool.eq_iff_iff]
    simp only [Bool.not_eq_true', decide_eq_true_eq]
    exact (get_col_none_iff t.cols r).symm
  constructor
  · intro hne
    simp only [transform_to_nwp]
    rw [hcong, if_pos hne]
  · intro h m
    simp only [transform_to_nwp]
    rw [hcong, h]
    simp

theorem not_digit_of_space {c : Char} (h : pyIsSpace c = true) :
    isAsciiDigit c = false := by
  simp only [pyIsSpace, Bool.or_eq_true, Bool.and_eq_true, decide_eq_true_eq] at h
  simp only [isAsciiDigit, Bool.and_eq_false_iff, decide_eq_false_iff_not, not_le]
  omega

theorem takeWhile_all (p : Char → Bool) (l : Str) (h : ∀ c ∈ l, p c = true) :
    l.takeWhile p = l := by
  have := takeWhile_append_all p l [] h
  simpa using this

theorem dropWhile_all (p : Char → Bool) (l : Str) (h : ∀ c ∈ l, p c = true) :
    l.dropWhile p = [] := by
  have := dropWhile_append_all p l [] h
  simpa using this

theorem head_not_space_of_digit_head (N l : Str) (n : Char)
    (hNdef : N = n :: l) (hn : isAsciiDigit n = true) :
    ∀ c, (N.head? = some c) → pyIsSpace c = false := by
  intro c hc
  rw [hNdef, List.head?_cons, Option.some.injEq] at hc
  rw [← hc]
  exact not_space_of_digit hn

/-- C5 (amended): for an address consisting of a non-empty run N of ASCII
digits (of at most fifteen digits, so the float-mediated integer
conversion of the source is exact), then non-empty whitespace, then a
non-empty remainder R that neither starts nor ends with whitespace and
contains no newline, the splitter returns the decimal rendering of the
numeric value of N (dropping leading zeros) as the number, and R with
trailing periods stripped as the street. -/
theorem C5_number_street_split (N w R : Str)
    (hN : N ≠ []) (hNd : ∀ c ∈ N, isAsciiDigit c = true)
    (hN15 : N.length ≤ 15)
    (hw : w ≠ []) (hws : ∀ c ∈ w, pyIsSpace c = true)
    (hR : R ≠ [])
    (hRh : ∀ c, R.head? = some c → pyIsSpace c = false)
    (hRl : ∀ c, R.getLast? = some c → pyIsSpace c = false)
    (hRn : ∀ c ∈ R, c.toNat ≠ 10) :
    parse_address_field (Option.some (N ++ w ++ R)) =
      (Option.some (natRepr (digitsToNat N)), Option.some (rstripDot R)) := by
  obtain ⟨n, N2, hNdef⟩ : ∃ n N2, N = n :: N2 := by
    cases N with
    | nil => exact absurd rfl hN
    | cons a b => exact ⟨a, b, rfl⟩
  obtain ⟨wc, w2, hwdef⟩ : ∃ wc w2, w = wc :: w2 := by
    cases w with
    | nil => exact absurd rfl hw
    | cons a b => exact ⟨a, b, rfl⟩
  obtain ⟨rc, R2, hRdef⟩ : ∃ rc R2, R = rc :: R2 := by
    cases R with
    | nil => exact absurd rfl hR
    | cons a b => exact ⟨a, b, rfl⟩
  have hn : isAsciiDigit n = true := hNd n (by rw [hNdef]; exact List.mem_cons_self n N2)
  have hwc : pyIsSpace wc = true := hws wc (by rw [hwdef]; exact List.mem_cons_self wc w2)
  have hrc : pyIsSpace rc = false := hRh rc (by rw [hRdef]; rfl)
  have hwR : w ++ R ≠ [] := by rw [hwdef]; simp
  have hRne : R ≠ [] := hR
  have hheadA : (N ++ (w ++ R)).head? = some n := by
    rw [hNdef]; rfl
  have hheadspace : ∀ c, ((N ++ (w ++ R)).head? = some c) → pyIsSpace c = false := by
    intro c hc
    rw [hheadA, Option.some.injEq] at hc
    rw [← hc]
    exact not_space_of_digit hn
  have hstrip : pyStrip (N ++ (w ++ R)) = N ++ (w ++ R) := by
    apply pyStrip_eq_self _ hheadspace
    intro c hc
    rw [List.getLast?_append_of_ne_nil _ hwR, List.getLast?_append_of_ne_nil _ hRne] at hc
    exact hRl c hc
  have htakewR : (w ++ R).takeWhile isAsciiDigit = [] := by
    rw [hwdef, List.cons_append, List.takeWhile_cons, not_digit_of_space hwc]
    simp
  have hdropwR : (w ++ R).dropWhile isAsciiDigit = w ++ R := by
    rw [hwdef, List.cons_append, List.dropWhile_cons, not_digit_of_space hwc]
    simp
  have hmidz : matchIntDotZero (N ++ (w ++ R)) = false := by
    simp only [matchIntDotZero]
    rw [dropWhile_append_all isAsciiDigit N (w ++ R) hNd, hdropwR]
    have hneq : decide (w ++ R = [Char.ofNat 46, Char.ofNat 48]) = false := by
      apply decide_eq_false
      intro heq
      rw [hwdef, List.cons_append, List.cons.injEq] at heq
      have : pyIsSpace (Char.ofNat 46) = true := heq.1 ▸ hwc
      exact absurd this (by decide)
    rw [hneq, Bool.and_false]
  have htokN : ∀ c ∈ N, isTokChar c = true := fun c hc => tok_of_digit (hNd c hc)
  have hlead : leadNumSplit (N ++ (w ++ R)) = some (N, R) := by
    simp only [leadNumSplit]
    rw [dropWhile_eq_self_of_head pyIsSpace (N ++ (w ++ R)) hheadspace, hheadA]
    simp only [hn, if_true]
    rw [takeWhile_append_all isTokChar N (w ++ R) htokN]
    have htokwR : (w ++ R).takeWhile isTokChar = [] := by
      rw [hwdef, List.cons_append, List.takeWhile_cons, not_tok_of_space hwc]
      simp
    have hdroptokwR : (w ++ R).dropWhile isTokChar = w ++ R := by
      rw [hwdef, List.cons_append, List.dropWhile_cons, not_tok_of_space hwc]
      simp
    rw [htokwR, dropWhile_append_all isTokChar N (w ++ R) htokN, hdroptokwR,
      List.append_nil]
    rw [takeWhile_append_all pyIsSpace w R hws]
    have htakeR : R.takeWhile pyIsSpace = [] := by
      rw [hRdef, List.takeWhile_cons, hrc]
      simp
    have hdropR0 : R.dropWhile pyIsSpace = R := by
      rw [hRdef, List.dropWhile_cons, hrc]
      simp
    rw [htakeR, dropWhile_append_all pyIsSpace w R hws, hdropR0, List.append_nil]
    have hcond : (decide (w ≠ []) && R.all fun ch => decide (ch.toNat ≠ 10)) = true := by
      rw [Bool.and_eq_true]
      refine ⟨decide_eq_true hw, ?_⟩
      rw [List.all_eq_true]
      intro c hc
      exact decide_eq_true (hRn c hc)
    rw [hcond]
    rfl
  have hstripN : pyStrip N = N := by
    apply pyStrip_eq_self _ (head_not_space_of_digit_head N N2 n hNdef hn)
    intro c hc
    exact not_space_of_digit (hNd c (List.mem_of_mem_getLast? hc))
  have hstripR : pyStrip R = R := pyStrip_eq_self R hRh hRl
  have hmnum : matchNumOptDotZeros N = true := by
    simp only [matchNumOptDotZeros]
    rw [takeWhile_all isAsciiDigit N hNd, dropWhile_all isAsciiDigit N hNd]
    simp [hNdef]
  rw [← List.append_assoc] at hstrip hmidz hlead
  simp only [parse_address_field, hstrip, hmidz, Bool.false_eq_true, if_false,
    hlead, hstripN, hstripR, hmnum, if_true, strIntFloat]
  rw [takeWhile_all isAsciiDigit N hNd]

theorem C5_witness :
    parse_address_field
        (Option.some (strLit "142" ++ strLit " " ++ strLit "Marrissa Ave.")) =
      (Option.some (natRepr (digitsToNat (strLit "142"))),
       Option.some (rstripDot (strLit "Marrissa Ave."))) ∧
    (Option.some (natRepr (digitsToNat (strLit "142"))),
       Option.some (rstripDot (strLit "Marrissa Ave."))) =
      ((Option.some (strLit "142") : Option Str),
       Option.some (strLit "Marrissa Ave")) := by
  constructor
  · apply C5_number_street_split (strLit "142") (strLit " ") (strLit "Marrissa Ave.")
    · decide
    · decide
    · decide
    · decide
    · decide
    · decide
    · intro c hc
      rw [show (strLit "Marrissa Ave.").head? = some (Char.ofNat 77) from rfl,
        Option.some.injEq] at hc
      rw [← hc]
      decide
    · intro c hc
      rw [show (strLit "Marrissa Ave.").getLast? = some (Char.ofNat 46) from rfl,
        Option.some.injEq] at hc
      rw [← hc]
      decide
    · decide
  · decide

/-- C6: a non-absent phone input that does not begin with a plus sign
after the string conversion and trimming of the source, and whose
digit-stripped form has exactly ten digits, formats as those ten digits in
order partitioned 3-3-4 with hyphens; with exactly eleven digits led by a
one, the leading one is dropped and the remaining ten digits format the
same way; and the numeric whole-number input 5145551234 formats with area
code 514. -/
theorem C6_phone_formats :
    (∀ v : CellVal, v ≠ CellVal.none →
      (phoneStrOf v).head? ≠ some (Char.ofNat 43) →
      ((phoneStrOf v).filter isAsciiDigit).length = 10 →
      format_phone_to_north_american v =
        Option.some (fmt334 ((phoneStrOf v).filter isAsciiDigit))) ∧
    (∀ v : CellVal, v ≠ CellVal.none →
      (phoneStrOf v).head? ≠ some (Char.ofNat 43) →
      ((phoneStrOf v).filter isAsciiDigit).length = 11 →
      ((phoneStrOf v).filter isAsciiDigit).head? = some (Char.ofNat 49) →
      format_phone_to_north_american v =
        Option.some (fmt334 ((phoneStrOf v).filter isAsciiDigit).tail)) ∧
    format_phone_to_north_american (CellVal.intv 5145551234) =
      Option.some (strLit "514-555-1234") := by
  refine ⟨?_, ?_, by decide⟩
  · intro v hv h1 h2
    cases v with
    | none => exact absurd rfl hv
    | str s =>
      simp only [format_phone_to_north_american]
      rw [if_neg h1, if_pos h2]
    | intv n =>
      simp only [format_phone_to_north_american]
      rw [if_neg h1, if_pos h2]
    | floatInt n =>
      simp only [format_phone_to_north_american]
      rw [if_neg h1, if_pos h2]
  · intro v hv h1 h2 h3
    cases v with
    | none => exact absurd rfl hv
    | str s =>
      simp only [format_phone_to_north_american]
      rw [if_neg h1, if_neg (by omega : ¬ ((phoneStrOf (CellVal.str s)).filter isAsciiDigit).length = 10)]
      rw [if_pos (by simp [h2, h3])]
    | intv n =>
      simp only [format_phone_to_north_american]
      rw [if_neg h1, if_neg (by omega : ¬ ((phoneStrOf (CellVal.intv n)).filter isAsciiDigit).length = 10)]
      rw [if_pos (by simp [h2, h3])]
    | floatInt n =>
      simp only [format_phone_to_north_american]
      rw [if_neg h1, if_neg (by omega : ¬ ((phoneStrOf (CellVal.floatInt n)).filter isAsciiDigit).length = 10)]
      rw [if_pos (by simp [h2, h3])]

theorem C6_witness :
    (CellVal.str (strLit "(514) 555-1234") ≠ CellVal.none) ∧
    format_phone_to_north_american (CellVal.str (strLit "(514) 555-1234")) =
      Option.some
        (fmt334 ((phoneStrOf (CellVal.str (strLit "(514) 555-1234"))).filter
          isAsciiDigit)) :=
  ⟨by decide,
   C6_phone_formats.1 (CellVal.str (strLit "(514) 555-1234"))
     (by decide) (by decide) (by decide)⟩

theorem C3_witness :
    (REQUIRED_ORIGINAL_COLUMNS.filter
        (fun r => decide (get_col exTableMissingAddress.cols r = Option.none)) ≠ []) ∧
    transform_to_nwp exTableMissingAddress =
      Except.error (REQUIRED_ORIGINAL_COLUMNS.filter
        (fun r => decide (get_col exTableMissingAddress.cols r = Option.none))) :=
  ⟨by decide, (C3_missing_columns exTableMissingAddress).1 (by decide)⟩

/-!
Order lemmas for the sort relation, and lemmas about deduplication.
-/

theorem strLtB_trans : ∀ a b c : Str, strLtB a b = true → strLtB b c = true →
    strLtB a c = true
  | [], [], _, h1, _ => by simp [strLtB] at h1
  | [], _ :: _, [], _, h2 => by simp [strLtB] at h2
  | [], _ :: _, _ :: _, _, _ => rfl
  | _ :: _, [], _, h1, _ => by simp [strLtB] at h1
  | _ :: _, _ :: _, [], _, h2 => by simp [strLtB] at h2
  | x :: xs, y :: ys, z :: zs, h1, h2 => by
    simp only [strLtB] at h1 h2 ⊢
    by_cases hxy : x.toNat < y.toNat
    · by_cases hyz : y.toNat < z.toNat
      · rw [if_pos (by omega : x.toNat < z.toNat)]
      · rw [if_neg hyz] at h2
        by_cases hzy : z.toNat < y.toNat
        · rw [if_pos hzy] at h2
          exact absurd h2 (by simp)
        · rw [if_pos (by omega : x.toNat < z.toNat)]
    · rw [if_neg hxy] at h1
      by_cases hyx : y.toNat < x.toNat
      · rw [if_pos hyx] at h1
        exact absurd h1 (by simp)
      · rw [if_neg hyx] at h1
        by_cases hyz : y.toNat < z.toNat
        · rw [if_pos (by omega : x.toNat < z.toNat)]
        · rw [if_neg hyz] at h2
          by_cases hzy : z.toNat < y.toNat
          · rw [if_pos hzy] at h2
            exact absurd h2 (by simp)
          · rw [if_neg hzy] at h2
            rw [if_neg (by omega : ¬ x.toNat < z.toNat),
              if_neg (by omega : ¬ z.toNat < x.toNat)]
            exact strLtB_trans xs ys zs h1 h2

theorem strLtB_eq_of_not : ∀ a b : Str, strLtB a b = false → strLtB b a = false →
    a = b
  | [], [], _, _ => rfl
  | [], _ :: _, h1, _ => by simp [strLtB] at h1
  | _ :: _, [], _, h2 => by simp [strLtB] at h2
  | x :: xs, y :: ys, h1, h2 => by
    simp only [strLtB] at h1 h2
    by_cases hxy : x.toNat < y.toNat
    · rw [if_pos hxy] at h1
      exact absurd h1 (by simp)
    · rw [if_neg hxy] at h1
      by_cases hyx : y.toNat < x.toNat
      · rw [if_pos hyx] at h2
        exact absurd h2 (by simp)
      · rw [if_neg hyx] at h1
        rw [if_neg hxy, if_neg hyx] at h2
        have hchar : x = y := char_eq_of_toNat_eq (by omega)
        rw [hchar, strLtB_eq_of_not xs ys h1 h2]

theorem keysLeB_total : ∀ a b : List Str, keysLeB a b = true ∨ keysLeB b a = true
  | [], _ => Or.inl rfl
  | _ :: _, [] => Or.inr rfl
  | a :: as, b :: bs => by
    by_cases hab : strLtB a b = true
    · exact Or.inl (by simp only [keysLeB, hab, if_true])
    · by_cases hba : strLtB b a = true
      · exact Or.inr (by simp only [keysLeB, hba, if_true])
      · have hab2 : strLtB a b = false := Bool.eq_false_iff.mpr hab
        have hba2 : strLtB b a = false := Bool.eq_false_iff.mpr hba
        cases keysLeB_total as bs with
        | inl h => exact Or.inl (by simp only [keysLeB, hab2, hba2,
            Bool.false_eq_true, if_false, h])
        | inr h => exact Or.inr (by simp only [keysLeB, hab2, hba2,
            Bool.false_eq_true, if_false, h])

theorem keysLeB_trans : ∀ a b c : List Str, keysLeB a b = true →
    keysLeB b c = true → keysLeB a c = true
  | [], _, _, _, _ => rfl
  | _ :: _, [], _, h1, _ => by simp [keysLeB] at h1
  | _ :: _, _ :: _, [], _, h2 => by simp [keysLeB] at h2
  | a :: as, b :: bs, c :: cs, h1, h2 => by
    simp only [keysLeB] at h1 h2 ⊢
    by_cases hab : strLtB a b = true
    · by_cases hbc : strLtB b c = true
      · rw [if_pos (strLtB_trans a b c hab hbc)]
      · rw [if_neg hbc] at h2
        by_cases hcb : strLtB c b = true
        · rw [if_pos hcb] at h2
          exact absurd h2 (by simp)
        · have heq := strLtB_eq_of_not b c (Bool.eq_false_iff.mpr hbc)
            (Bool.eq_false_iff.mpr hcb)
          rw [← heq, if_pos hab]
    · rw [if_neg hab] at h1
      by_cases hba : strLtB b a = true
      · rw [if_pos hba] at h1
        exact absurd h1 (by simp)
      · rw [if_neg hba] at h1
        have heq := strLtB_eq_of_not a b (Bool.eq_false_iff.mpr hab)
          (Bool.eq_false_iff.mpr hba)
        subst heq
        by_cases hac : strLtB a c = true
        · rw [if_pos hac]
        · rw [if_neg hac] at h2 ⊢
          by_cases hca : strLtB c a = true
          · rw [if_pos hca] at h2
            exact absurd h2 (by simp)
          · rw [if_neg hca] at h2 ⊢
            exact keysLeB_trans as bs cs h1 h2

theorem rowLe_total (a b : OutRow) : RowLeP a b ∨ RowLeP b a :=
  keysLeB_total (keyOf a) (keyOf b)

theorem rowLe_trans {a b c : OutRow} (h1 : RowLeP a b) (h2 : RowLeP b c) :
    RowLeP a c :=
  keysLeB_trans (keyOf a) (keyOf b) (keyOf c) h1 h2

theorem dedupAux_sublist : ∀ (l : List OutRow) (seen : List (List CellVal)),
    (dedupAux seen l).Sublist l
  | [], _ => List.Sublist.refl []
  | r :: rs, seen => by
    simp only [dedupAux]
    by_cases h : keyVals r ∈ seen
    · rw [if_pos h]
      exact (dedupAux_sublist rs seen).cons r
    · rw [if_neg h]
      exact (dedupAux_sublist rs (keyVals r :: seen)).cons₂ r

theorem mem_dedupAux (x : OutRow) : ∀ (l : List OutRow) (seen : List (List CellVal)),
    x ∈ dedupAux seen l ↔
      (keyVals x ∉ seen ∧
        l.find? (fun y => decide (keyVals y = keyVals x)) = some x)
  | [], seen => by simp [dedupAux]
  | r :: rs, seen => by
    simp only [dedupAux, List.find?_cons]
    by_cases hseen : keyVals r ∈ seen
    · rw [if_pos hseen]
      by_cases hkey : keyVals r = keyVals x
      · rw [decide_eq_true hkey]
        constructor
        · intro hmem
          have := (mem_dedupAux x rs seen).mp hmem
          exact absurd (hkey ▸ hseen) this.1
        · intro ⟨hnot, _⟩
          exact absurd (hkey ▸ hseen) hnot
      · rw [decide_eq_false hkey]
        exact mem_dedupAux x rs seen
    · rw [if_neg hseen]
      by_cases hkey : keyVals r = keyVals x
      · rw [decide_eq_true hkey]
        simp only [List.mem_cons]
        constructor
        · intro hmem
          cases hmem with
          | inl heq => exact ⟨heq ▸ (hkey ▸ hseen), by rw [heq]⟩
          | inr hmem =>
            have := (mem_dedupAux x rs (keyVals r :: seen)).mp hmem
            exact absurd (hkey ▸ List.mem_cons_self (keyVals r) seen) this.1
        · intro ⟨_, hfind⟩
          exact Or.inl (Option.some.inj hfind).symm
      · rw [decide_eq_false hkey]
        simp only [List.mem_cons]
        constructor
        · intro hmem
          cases hmem with
          | inl heq => exact absurd (congrArg keyVals heq.symm) hkey
          | inr hmem =>
            have := (mem_dedupAux x rs (keyVals r :: seen)).mp hmem
            refine ⟨fun hx => this.1 (List.mem_cons_of_mem _ hx), this.2⟩
        · intro ⟨hnot, hfind⟩
          refine Or.inr ((mem_dedupAux x rs (keyVals r :: seen)).mpr ⟨?_, hfind⟩)
          intro hx
          cases List.mem_cons.mp hx with
          | inl heq => exact hkey heq.symm
          | inr hmem => exact hnot hmem

theorem dedupAux_pairwise : ∀ (l : List OutRow) (seen : List (List CellVal)),
    (dedupAux seen l).Pairwise (fun a b => keyVals a ≠ keyVals b)
  | [], _ => List.Pairwise.nil
  | r :: rs, seen => by
    simp only [dedupAux]
    by_cases h : keyVals r ∈ seen
    · rw [if_pos h]
      exact dedupAux_pairwise rs seen
    · rw [if_neg h]
      refine List.Pairwise.cons ?_ (dedupAux_pairwise rs (keyVals r :: seen))
      intro b hb
      have := (mem_dedupAux b rs (keyVals r :: seen)).mp hb
      intro heq
      exact this.1 (heq ▸ List.mem_cons_self (keyVals r) seen)

theorem dedupAux_covers : ∀ (l : List OutRow) (seen : List (List CellVal))
    (x : OutRow), x ∈ l → keyVals x ∉ seen →
    ∃ r ∈ dedupAux seen l, keyVals r = keyVals x
  | [], _, x, hx, _ => absurd hx (List.not_mem_nil x)
  | r :: rs, seen, x, hx, hns => by
    simp only [dedupAux]
    by_cases hseen : keyVals r ∈ seen
    · rw [if_pos hseen]
      cases List.mem_cons.mp hx with
      | inl heq =>
        exact absurd (heq ▸ hns) (fun hh => hh (heq ▸ hseen))
      | inr hmem => exact dedupAux_covers rs seen x hmem hns
    · rw [if_neg hseen]
      by_cases hkey : keyVals x = keyVals r
      · exact ⟨r, List.mem_cons_self r _, hkey.symm⟩
      · cases List.mem_cons.mp hx with
        | inl heq => exact absurd (congrArg keyVals heq) hkey
        | inr hmem =>
          obtain ⟨y, hy, hky⟩ := dedupAux_covers rs (keyVals r :: seen) x hmem
            (by
              intro hmm
              cases List.mem_cons.mp hmm with
              | inl h2 => exact hkey h2
              | inr h2 => exact hns h2)
          exact ⟨y, List.mem_cons_of_mem r hy, hky⟩

theorem transform_ok_eq {t : SrcTable} {rows : List OutRow}
    (h : transform_to_nwp t = Except.ok rows) :
    rows = dedupRows (sortRows (t.rows.map (mapRow t.cols))) := by
  simp only [transform_to_nwp] at h
  split at h
  · exact absurd h (by simp)
  · exact (Except.ok.inj h).symm

/-- C1 counterexample: on the concrete table exTable, the transformed
output places the record with an absent Street strictly before the record
whose Street is Main St, because an absent value is keyed as the empty
string and the empty string sorts before every non-empty string; the
claim demands the opposite order (absent after all present values). -/
theorem C1_counterexample :
    exOut.map (fun r => fieldVal r (strLit "Street")) =
      [CellVal.none, CellVal.str (strLit "Main St")] ∧
    exOut.map (fun r => fieldVal r (strLit "Street")) ≠
      [CellVal.str (strLit "Main St"), CellVal.none] := by
  exact ⟨by decide, by decide⟩

/-- C1 (amended): for every accepted source table, the rows of the output
table are ordered ascending by the key (Street, Number, ApartmentNumber,
Suburb, State), where each key component is the str() of the value with
absent replaced by the empty string; an absent component therefore sorts
together with empty strings, before every non-empty component, not after
all present values. -/
theorem C1_sorted_ascending (t : SrcTable) (rows : List OutRow)
    (h : transform_to_nwp t = Except.ok rows) :
    List.Sorted RowLeP rows := by
  rw [transform_ok_eq h]
  haveI : IsTotal OutRow RowLeP := ⟨rowLe_total⟩
  haveI : IsTrans OutRow RowLeP := ⟨fun _ _ _ h1 h2 => rowLe_trans h1 h2⟩
  have hs : List.Sorted RowLeP (sortRows (t.rows.map (mapRow t.cols))) :=
    List.sorted_insertionSort RowLeP _
  exact List.Pairwise.sublist (dedupAux_sublist _ _) hs

theorem C1_witness :
    transform_to_nwp exTable = Except.ok exOut ∧ List.Sorted RowLeP exOut :=
  ⟨by rfl, C1_sorted_ascending exTable exOut (by rfl)⟩

/-- C2: for every accepted source table, no two output records share the
(Street, Number, ApartmentNumber, Suburb, State) value tuple, the output
row count is at most the input row count, and the record kept for each
tuple is the first record with that tuple in post-sort order: every kept
record is the first find of its tuple in the sorted list, and every sorted
record has a kept representative of its tuple. -/
theorem C2_dedup_first_kept (t : SrcTable) (rows : List OutRow)
    (h : transform_to_nwp t = Except.ok rows) :
    rows.Pairwise (fun a b => keyVals a ≠ keyVals b) ∧
    rows.length ≤ t.rows.length ∧
    (∀ r ∈ rows, (sortRows (t.rows.map (mapRow t.cols))).find?
        (fun y => decide (keyVals y = keyVals r)) = some r) ∧
    (∀ x ∈ sortRows (t.rows.map (mapRow t.cols)),
      ∃ r ∈ rows, keyVals r = keyVals x) := by
  have heq := transform_ok_eq h
  subst heq
  simp only [dedupRows]
  refine ⟨dedupAux_pairwise _ _, ?_, ?_, ?_⟩
  · have h1 := (dedupAux_sublist (sortRows (t.rows.map (mapRow t.cols))) []).length_le
    have h2 : (sortRows (t.rows.map (mapRow t.cols))).length =
        (t.rows.map (mapRow t.cols)).length :=
      (List.perm_insertionSort RowLeP (t.rows.map (mapRow t.cols))).length_eq
    rw [List.length_map] at h2
    omega
  · intro r hr
    exact ((mem_dedupAux r _ []).mp hr).2
  · intro x hx
    exact dedupAux_covers _ [] x hx (by simp)

theorem C2_witness :
    transform_to_nwp exTable = Except.ok exOut ∧
    exOut.Pairwise (fun a b => keyVals a ≠ keyVals b) ∧
    exOut.length ≤ exTable.rows.length := by
  have h := C2_dedup_first_kept exTable exOut (by rfl)
  exact ⟨by rfl, h.1, h.2.1⟩

/-- C4 counterexample: the target schema has 26 fields, not 25: on the
concrete table exTable every output record carries exactly the
TARGET_COLUMNS field names, and that list has length 26. -/
theorem C4_counterexample :
    exOut.map (fun r => r.map Prod.fst) = [TARGET_COLUMNS, TARGET_COLUMNS] ∧
    TARGET_COLUMNS.length = 26 ∧ TARGET_COLUMNS.length ≠ 25 :=
  ⟨by decide, by decide, by decide⟩

/-- C4 (amended): every record of the output table has exactly the
canonical 26 field names of TARGET_COLUMNS, in declared order, with
TerritoryID first and NotesFromPublisher last, and the reserved unset
fields are present carrying an absent value rather than omitted. -/
theorem C4_schema_canonical (t : SrcTable) (rows : List OutRow)
    (h : transform_to_nwp t = Except.ok rows) :
    (∀ r ∈ rows, r.map Prod.fst = TARGET_COLUMNS ∧
      fieldVal r (strLit "TerritoryID") = CellVal.none ∧
      fieldVal r (strLit "NotesFromPublisher") = CellVal.none) ∧
    TARGET_COLUMNS.length = 26 ∧
    TARGET_COLUMNS.head? = some (strLit "TerritoryID") ∧
    TARGET_COLUMNS.getLast? = some (strLit "NotesFromPublisher") := by
  refine ⟨?_, by decide, by decide, by decide⟩
  intro r hr
  rw [transform_ok_eq h] at hr
  have h1 : r ∈ sortRows (t.rows.map (mapRow t.cols)) :=
    (dedupAux_sublist _ _).subset hr
  have h2 : r ∈ t.rows.map (mapRow t.cols) :=
    (List.mem_insertionSort RowLeP).mp h1
  obtain ⟨row, _, hrow⟩ := List.mem_map.mp h2
  rw [← hrow]
  exact ⟨rfl, rfl, rfl⟩

theorem C4_witness :
    transform_to_nwp exTable = Except.ok exOut ∧
    ∀ r ∈ exOut, r.map Prod.fst = TARGET_COLUMNS := by
  have h := C4_schema_canonical exTable exOut (by rfl)
  exact ⟨by rfl, fun r hr => (h.1 r hr).1⟩

/-!
Character range lemmas for the modelled case maps.
-/

theorem char_toNat_ofNat (n : Nat) (h : n < 55296) : (Char.ofNat n).toNat = n := by
  unfold Char.ofNat
  split
  · rfl
  · exact absurd (Or.inl h) (by assumption)

theorem upper_mem_range (c d : Char) (hd : d ∈ pyUpperChar c) :
    d = c ∨ (65 ≤ d.toNat ∧ d.toNat ≤ 90) := by
  unfold pyUpperChar at hd
  by_cases hc : c = eszett
  · rw [if_pos hc] at hd
    have : d = Char.ofNat 83 := by
      cases List.mem_cons.mp hd with
      | inl h => exact h
      | inr h => simpa using h
    subst this
    right
    constructor <;> decide
  · rw [if_neg hc] at hd
    have hde : d = asciiUpperCh c := by simpa using hd
    subst hde
    unfold asciiUpperCh
    by_cases hl : isAsciiLowerAlpha c = true
    · rw [if_pos hl]
      right
      simp only [isAsciiLowerAlpha, Bool.and_eq_true, decide_eq_true_eq] at hl
      rw [char_toNat_ofNat _ (by omega)]
      omega
    · rw [if_neg hl]
      exact Or.inl rfl

theorem lower_range (c : Char) :
    pyLowerChar c = c ∨ (97 ≤ (pyLowerChar c).toNat ∧ (pyLowerChar c).toNat ≤ 122) := by
  unfold pyLowerChar
  by_cases hu : isAsciiUpperAlpha c = true
  · rw [if_pos hu]
    right
    simp only [isAsciiUpperAlpha, Bool.and_eq_true, decide_eq_true_eq] at hu
    rw [char_toNat_ofNat _ (by omega)]
    omega
  · rw [if_neg hu]
    exact Or.inl rfl

theorem upper_ascii {c d : Char} (hc : c.toNat < 128) (hd : d ∈ pyUpperChar c) :
    d.toNat < 128 := by
  cases upper_mem_range c d hd with
  | inl h => rw [h]; exact hc
  | inr h => omega

theorem lower_ascii {c : Char} (hc : c.toNat < 128) :
    (pyLowerChar c).toNat < 128 := by
  cases lower_range c with
  | inl h => rw [h]; exact hc
  | inr h => omega

theorem pyUpperChar_ascii (c : Char) (hc : c.toNat < 128) :
    pyUpperChar c = [asciiUpperCh c] := by
  unfold pyUpperChar
  rw [if_neg]
  intro he
  rw [he] at hc
  exact absurd hc (by decide)

theorem asciiUpperCh_ascii {c : Char} (hc : c.toNat < 128) :
    (asciiUpperCh c).toNat < 128 := by
  have : asciiUpperCh c ∈ pyUpperChar c := by
    rw [pyUpperChar_ascii c hc]
    exact List.mem_cons_self _ _
  exact upper_ascii hc this

theorem asciiUpperCh_idem (c : Char) :
    asciiUpperCh (asciiUpperCh c) = asciiUpperCh c := by
  unfold asciiUpperCh
  by_cases hl : isAsciiLowerAlpha c = true
  · rw [if_pos hl, if_neg]
    simp only [isAsciiLowerAlpha, Bool.and_eq_true, decide_eq_true_eq] at hl ⊢
    rw [char_toNat_ofNat _ (by omega)]
    omega
  · rw [if_neg hl, if_neg hl]

theorem pyLowerChar_idem (c : Char) :
    pyLowerChar (pyLowerChar c) = pyLowerChar c := by
  unfold pyLowerChar
  by_cases hu : isAsciiUpperAlpha c = true
  · rw [if_pos hu, if_neg]
    simp only [isAsciiUpperAlpha, Bool.and_eq_true, decide_eq_true_eq] at hu ⊢
    rw [char_toNat_ofNat _ (by omega)]
    omega
  · rw [if_neg hu, if_neg hu]

theorem lower_upper (c : Char) : pyLowerChar (asciiUpperCh c) = pyLowerChar c := by
  unfold asciiUpperCh
  by_cases hl : isAsciiLowerAlpha c = true
  · rw [if_pos hl]
    have hl2 := hl
    simp only [isAsciiLowerAlpha, Bool.and_eq_true, decide_eq_true_eq] at hl2
    unfold pyLowerChar
    rw [if_pos, if_neg]
    · rw [char_toNat_ofNat _ (by omega)]
      have : c.toNat - 32 + 32 = c.toNat := by omega
      rw [this, Char.ofNat_toNat]
    · simp only [isAsciiUpperAlpha, Bool.and_eq_true, decide_eq_true_eq, not_and, not_le]
      omega
    · simp only [isAsciiUpperAlpha, Bool.and_eq_true, decide_eq_true_eq]
      rw [char_toNat_ofNat _ (by omega)]
      omega
  · rw [if_neg hl]

/-!
Structure lemmas for splitKeep.
-/

theorem splitKeep_flatten (p : Char → Bool) : ∀ s : Str,
    (splitKeep p s).flatten = s
  | [] => rfl
  | c :: cs => by
    simp only [splitKeep]
    by_cases hc : p c = true
    · rw [if_pos hc]
      simp only [List.flatten_cons, List.nil_append, List.singleton_append]
      rw [splitKeep_flatten p cs]
    · rw [if_neg hc]
      have hr := splitKeep_flatten p cs
      cases hsk : splitKeep p cs with
      | nil =>
        rw [hsk] at hr
        simp only [List.flatten_nil] at hr
        simp [← hr]
      | cons t ts =>
        rw [hsk] at hr
        simp only [List.flatten_cons] at hr ⊢
        rw [List.cons_append, hr]

theorem splitKeep_shape (p : Char → Bool) : ∀ s : Str,
    ∃ s0 rest, splitKeep p s = s0 :: rest ∧ (∀ c ∈ s0, p c = false) ∧
      AltTail p rest
  | [] => ⟨[], [], rfl, by simp, AltTail.nil⟩
  | c :: cs => by
    obtain ⟨s0, rest, heq, hfree, htail⟩ := splitKeep_shape p cs
    by_cases hc : p c = true
    · refine ⟨[], [c] :: s0 :: rest, ?_, by simp, AltTail.cons c s0 rest hc hfree htail⟩
      simp only [splitKeep, if_pos hc, heq]
    · refine ⟨c :: s0, rest, ?_, ?_, htail⟩
      · simp only [splitKeep, if_neg hc, heq]
      · intro x hx
        cases List.mem_cons.mp hx with
        | inl h => rw [h]; exact Bool.eq_false_iff.mpr hc
        | inr h => exact hfree x h

theorem splitKeep_seg_single (p : Char → Bool) : ∀ s0 : Str,
    (∀ c ∈ s0, p c = false) → splitKeep p s0 = [s0]
  | [], _ => rfl
  | c :: cs, h => by
    simp only [splitKeep,
      if_neg (by rw [h c (List.mem_cons_self c cs)]; simp : ¬ p c = true)]
    rw [splitKeep_seg_single p cs (fun x hx => h x (List.mem_cons_of_mem c hx))]

theorem splitKeep_append_seg (p : Char → Bool) : ∀ (s0 l : Str),
    (∀ c ∈ s0, p c = false) → ∀ h0 t0, splitKeep p l = h0 :: t0 →
    splitKeep p (s0 ++ l) = (s0 ++ h0) :: t0
  | [], l, _, h0, t0, hl => by simpa using hl
  | c :: cs, l, h, h0, t0, hl => by
    simp only [List.cons_append, splitKeep,
      if_neg (by rw [h c (List.mem_cons_self c cs)]; simp : ¬ p c = true)]
    rw [show cs.append l = cs ++ l from rfl,
      splitKeep_append_seg p cs l (fun x hx => h x (List.mem_cons_of_mem c hx))
      h0 t0 hl]

theorem splitKeep_reconstruct (p : Char → Bool) (parts : List Str)
    (h : AltTail p parts) : ∀ s0 : Str, (∀ c ∈ s0, p c = false) →
    splitKeep p (s0 ++ parts.flatten) = s0 :: parts := by
  induction h with
  | nil =>
    intro s0 h0
    simp only [List.flatten_nil, List.append_nil]
    exact splitKeep_seg_single p s0 h0
  | cons c s rest hc hs htail ih =>
    intro s0 h0
    have hinner := ih s hs
    have hcsplit : splitKeep p (c :: (s ++ rest.flatten)) =
        [] :: [c] :: s :: rest := by
      simp only [splitKeep, if_pos hc, hinner]
    have := splitKeep_append_seg p s0 (c :: (s ++ rest.flatten)) h0
      [] ([c] :: s :: rest) hcsplit
    rw [List.append_nil] at this
    simp only [List.flatten_cons, List.singleton_append]
    rw [← List.cons_append] at this
    simpa using this

theorem mem_splitKeep_mem (p : Char → Bool) {s part : Str} {c : Char}
    (hp : part ∈ splitKeep p s) (hc : c ∈ part) : c ∈ s := by
  rw [← splitKeep_flatten p s]
  exact List.mem_flatten.mpr ⟨part, hp, hc⟩

/-!
Lemmas about the capitalisation helpers.
-/

theorem cap_segment_chars {s : Str} {d : Char} (hd : d ∈ cap_segment s) :
    d ∈ s ∨ (65 ≤ d.toNat ∧ d.toNat ≤ 90) ∨ (97 ≤ d.toNat ∧ d.toNat ≤ 122) := by
  unfold cap_segment at hd
  split at hd
  · exact Or.inl hd
  · split at hd
    · exact Or.inl hd
    · match s, hd with
      | [], hd => exact absurd hd (List.not_mem_nil d)
      | c :: rest, hd =>
        cases List.mem_append.mp hd with
        | inl h =>
          cases upper_mem_range c d h with
          | inl he => exact Or.inl (he ▸ List.mem_cons_self c rest)
          | inr hr => exact Or.inr (Or.inl hr)
        | inr h =>
          obtain ⟨x, hx, hxd⟩ := List.mem_map.mp h
          cases lower_range x with
          | inl he =>
            rw [← hxd, he]
            exact Or.inl (List.mem_cons_of_mem c hx)
          | inr hr =>
            rw [← hxd]
            exact Or.inr (Or.inr hr)

theorem cap_segment_length_ge (s : Str) : s.length ≤ (cap_segment s).length := by
  unfold cap_segment
  split
  · exact Nat.le_refl _
  · split
    · exact Nat.le_refl _
    · match s with
      | [] => exact Nat.le_refl _
      | c :: rest =>
        simp only [List.length_cons, List.length_append, List.length_map]
        have : 1 ≤ (pyUpperChar c).length := by
          unfold pyUpperChar
          split <;> simp
        omega

theorem cap_segment_length_ascii {s : Str} (h : ∀ c ∈ s, c.toNat < 128) :
    (cap_segment s).length = s.length := by
  match s, h with
  | [], _ => rfl
  | c :: rest, h =>
    unfold cap_segment
    split
    · rfl
    · split
      · rfl
      · show (pyUpperChar c ++ rest.map pyLowerChar).length = (c :: rest).length
        rw [pyUpperChar_ascii c (h c (List.mem_cons_self c rest))]
        simp

theorem capApos_eq_capNonApos (s : Str) : capApos s = capNonApos s := by
  unfold capApos capNonApos
  refine congrArg List.flatten (List.map_congr_left ?_)
  intro sp _
  unfold capPart
  by_cases h1 : inDashSlashStr sp = true
  · simp [h1]
  · simp only [Bool.not_eq_true] at h1
    simp only [h1, Bool.false_eq_true, if_false]
    by_cases h2 : (pyIsUpperStr sp && decide (sp.length ≤ 3)) = true
    · rw [if_pos h2]
      unfold cap_segment
      rw [if_pos h2]
    · rw [if_neg h2]

theorem capNonApos_chars {s : Str} {d : Char} (hd : d ∈ capNonApos s) :
    d ∈ s ∨ (65 ≤ d.toNat ∧ d.toNat ≤ 90) ∨ (97 ≤ d.toNat ∧ d.toNat ≤ 122) := by
  unfold capNonApos at hd
  obtain ⟨y, hy, hdy⟩ := List.mem_flatten.mp hd
  obtain ⟨part, hpart, hfy⟩ := List.mem_map.mp hy
  have hmem : ∀ e ∈ part, e ∈ s := fun e he =>
    mem_splitKeep_mem isDashSlash hpart he
  rw [← hfy] at hdy
  unfold capPart at hdy
  split at hdy
  · exact Or.inl (hmem d hdy)
  · split at hdy
    · exact Or.inl (hmem d hdy)
    · cases cap_segment_chars hdy with
      | inl h => exact Or.inl (hmem d h)
      | inr h => exact Or.inr h

theorem flatten_map_length_ge (f : Str → Str) : ∀ L : List Str,
    (∀ x ∈ L, x.length ≤ (f x).length) →
    L.flatten.length ≤ ((L.map f).flatten).length
  | [], _ => Nat.le_refl _
  | x :: L, h => by
    simp only [List.map_cons, List.flatten_cons, List.length_append]
    have h1 := h x (List.mem_cons_self x L)
    have h2 := flatten_map_length_ge f L (fun y hy => h y (List.mem_cons_of_mem x hy))
    omega

theorem capNonApos_length_ge (s : Str) : s.length ≤ (capNonApos s).length := by
  unfold capNonApos
  have hflat := splitKeep_flatten isDashSlash s
  have := flatten_map_length_ge capPart (splitKeep isDashSlash s)
    (by
      intro x _
      unfold capPart
      split
      · exact Nat.le_refl _
      · split
        · exact Nat.le_refl _
        · exact cap_segment_length_ge x)
  rw [hflat] at this
  exact this

theorem capNonApos_nil : capNonApos [] = [] := by decide

theorem processAposParts_nil_cons : ∀ rest : List Str,
    processAposParts ([] :: rest) = processAposParts rest
  | [] => by
    show processAposParts [[]] = []
    simp only [processAposParts, if_neg (by simp : ¬ ([] : Str) = [aposChar])]
    exact capNonApos_nil
  | x :: rest2 => by
    simp only [processAposParts, if_neg (by simp : ¬ ([] : Str) = [aposChar])]
    rw [capNonApos_nil, List.nil_append]

theorem processAposParts_tail (rest : List Str) (h : AltTail isAposChar rest) :
    processAposParts rest = (procTailNF rest).flatten := by
  induction h with
  | nil => rfl
  | cons c s rest2 hc hs htail ih =>
    have hceq : c = aposChar := by
      apply char_eq_of_toNat_eq
      simp only [isAposChar, decide_eq_true_eq] at hc
      rw [hc]
      rfl
    subst hceq
    simp only [processAposParts, if_pos rfl]
    by_cases h1 : pyLowerStr s = [Char.ofNat 115]
    · rw [if_pos h1]
      simp only [procTailNF, apSeg, if_pos h1, List.flatten_cons]
      rw [ih]
      rfl
    · rw [if_neg h1]
      by_cases h2 : s = []
      · subst h2
        rw [if_neg (by decide : ¬ (decide (([] : Str) ≠ []) = true))]
        rw [processAposParts_nil_cons rest2, ih]
        simp only [procTailNF, apSeg, if_neg h1, capApos_eq_capNonApos,
          capNonApos_nil, List.flatten_cons]
        rfl
      · rw [if_pos (decide_eq_true h2 : decide (s ≠ []) = true)]
        simp only [procTailNF, apSeg, if_neg h1, List.flatten_cons]
        rw [ih, capApos_eq_capNonApos]
        simp

theorem processAposParts_head (s0 : Str) (rest : List Str)
    (h0 : ∀ c ∈ s0, isAposChar c = false) (h : AltTail isAposChar rest) :
    processAposParts (s0 :: rest) = capNonApos s0 ++ (procTailNF rest).flatten := by
  have hs0ne : ¬ (s0 = [aposChar]) := by
    intro he
    have := h0 aposChar (he ▸ List.mem_cons_self _ _)
    rw [show isAposChar aposChar = true from by decide] at this
    exact absurd this (by simp)
  cases rest with
  | nil =>
    show processAposParts [s0] = capNonApos s0 ++ (procTailNF []).flatten
    simp only [processAposParts, if_neg hs0ne, procTailNF, List.flatten_nil,
      List.append_nil]
  | cons x rest2 =>
    simp only [processAposParts, if_neg hs0ne]
    rw [processAposParts_tail (x :: rest2) h]

theorem not_space_of_letter {d : Char}
    (h : (65 ≤ d.toNat ∧ d.toNat ≤ 90) ∨ (97 ≤ d.toNat ∧ d.toNat ≤ 122) ∨
      d.toNat = 115) : pyIsSpace d = false := by
  simp only [pyIsSpace, Bool.or_eq_false_iff, Bool.and_eq_false_iff,
    decide_eq_false_iff_not, not_le]
  omega

theorem procTailNF_flatten_chars {rest : List Str} (h : AltTail isAposChar rest)
    {d : Char} (hd : d ∈ (procTailNF rest).flatten) :
    d ∈ rest.flatten ∨ (65 ≤ d.toNat ∧ d.toNat ≤ 90) ∨
      (97 ≤ d.toNat ∧ d.toNat ≤ 122) ∨ d.toNat = 115 := by
  induction h with
  | nil => exact absurd hd (by simp [procTailNF])
  | cons c s rest2 hc hs htail ih =>
    simp only [procTailNF, List.flatten_cons, List.singleton_append,
      List.mem_cons, List.mem_append] at hd
    cases hd with
    | inl hdc =>
      subst hdc
      exact Or.inl (by simp [List.flatten_cons])
    | inr hd2 =>
      cases hd2 with
      | inl hdin =>
        unfold apSeg at hdin
        split at hdin
        · have : d = Char.ofNat 115 := by simpa using hdin
          subst this
          exact Or.inr (Or.inr (Or.inr (by decide)))
        · rw [capApos_eq_capNonApos] at hdin
          cases capNonApos_chars hdin with
          | inl hmem =>
            exact Or.inl (by
              simp only [List.flatten_cons, List.singleton_append, List.mem_cons,
                List.mem_append]
              exact Or.inr (Or.inl hmem))
          | inr hr => exact Or.inr (hr.imp id Or.inl)
      | inr hdrest =>
        cases ih hdrest with
        | inl hmem =>
          exact Or.inl (by
            simp only [List.flatten_cons, List.singleton_append, List.mem_cons,
              List.mem_append]
            exact Or.inr (Or.inr hmem))
        | inr hr => exact Or.inr hr

theorem procTailNF_flatten_length_ge {rest : List Str}
    (h : AltTail isAposChar rest) :
    rest.flatten.length ≤ (procTailNF rest).flatten.length := by
  induction h with
  | nil => exact Nat.le_refl _
  | cons c s rest2 hc hs htail ih =>
    simp only [procTailNF, List.flatten_cons, List.length_append]
    have haps : s.length ≤ (apSeg s).length := by
      unfold apSeg
      split
      · have hlen : pyLowerStr s = [Char.ofNat 115] := by assumption
        have : s.length = 1 := by
          have := congrArg List.length hlen
          simpa [pyLowerStr] using this
        simp [this]
      · rw [capApos_eq_capNonApos]
        exact capNonApos_length_ge s
    omega

theorem procToken_word {t : Str} (htne : t ≠ []) (ht : ∀ c ∈ t, pyIsSpace c = false) :
    procToken t ≠ [] ∧ ∀ d ∈ procToken t, pyIsSpace d = false := by
  have hsp : pyIsSpaceStr t = false := by
    match t, htne with
    | x :: xs, _ =>
      simp [pyIsSpaceStr, ht x (List.mem_cons_self x xs)]
  have hproc : procToken t = processAposParts (splitKeep isAposChar t) := by
    unfold procToken
    rw [hsp]
    simp
  obtain ⟨s0, rest, heq, hfree, htail⟩ := splitKeep_shape isAposChar t
  rw [hproc, heq, processAposParts_head s0 rest hfree htail]
  have hfl : s0 ++ rest.flatten = t := by
    have := splitKeep_flatten isAposChar t
    rw [heq] at this
    simpa [List.flatten_cons] using this
  constructor
  · intro habs
    have hlen := congrArg List.length habs
    simp only [List.length_append, List.length_nil] at hlen
    have h1 := capNonApos_length_ge s0
    have h2 := procTailNF_flatten_length_ge htail
    have h3 : 0 < t.length := List.length_pos.mpr htne
    have h4 := congrArg List.length hfl
    simp only [List.length_append] at h4
    omega
  · intro d hd
    cases List.mem_append.mp hd with
    | inl hdc =>
      cases capNonApos_chars hdc with
      | inl hmem =>
        exact ht d (by rw [← hfl]; exact List.mem_append.mpr (Or.inl hmem))
      | inr hr => exact not_space_of_letter (Or.imp id Or.inl hr)
    | inr hdt =>
      cases procTailNF_flatten_chars htail hdt with
      | inl hmem =>
        exact ht d (by rw [← hfl]; exact List.mem_append.mpr (Or.inr hmem))
      | inr hr => exact not_space_of_letter hr

/-!
Structure lemmas for the whitespace run decomposition.
-/

theorem groupRuns_cons_cons (a b : Char) (rest : Str) :
    groupRuns (a :: b :: rest) =
      match groupRuns (b :: rest) with
      | [] => [[a]]
      | t :: ts =>
        if pyIsSpace a = pyIsSpace b then (a :: t) :: ts else [a] :: t :: ts := rfl

theorem groupRuns_flatten : ∀ s : Str, (groupRuns s).flatten = s
  | [] => rfl
  | [c] => by simp [groupRuns]
  | a :: b :: rest => by
    rw [groupRuns_cons_cons]
    have hr := groupRuns_flatten (b :: rest)
    cases hgr : groupRuns (b :: rest) with
    | nil =>
      rw [hgr] at hr
      simp at hr
    | cons t ts =>
      rw [hgr] at hr
      show (if pyIsSpace a = pyIsSpace b then (a :: t) :: ts
        else [a] :: t :: ts).flatten = a :: b :: rest
      by_cases hcls : pyIsSpace a = pyIsSpace b
      · rw [if_pos hcls]
        simp only [List.flatten_cons] at hr ⊢
        rw [List.cons_append, hr]
      · rw [if_neg hcls]
        simp only [List.flatten_cons, List.singleton_append] at hr ⊢
        rw [hr]

theorem groupRuns_runs : ∀ (c : Char) (cs : Str),
    Runs (pyIsSpace c) (groupRuns (c :: cs))
  | c, [] => by
    simp only [groupRuns]
    refine Runs.cons _ [c] [] (by simp) ?_ (Runs.nil _)
    intro x hx
    have : x = c := by simpa using hx
    rw [this]
  | a, b :: rest => by
    have ih := groupRuns_runs b rest
    rw [groupRuns_cons_cons]
    cases hgr : groupRuns (b :: rest) with
    | nil =>
      have := groupRuns_flatten (b :: rest)
      rw [hgr] at this
      simp at this
    | cons t ts =>
      rw [hgr] at ih
      show Runs (pyIsSpace a)
        (if pyIsSpace a = pyIsSpace b then (a :: t) :: ts else [a] :: t :: ts)
      by_cases hcls : pyIsSpace a = pyIsSpace b
      · rw [if_pos hcls]
        cases ih with
        | cons _ _ _ hne hall hrest =>
          refine Runs.cons _ (a :: t) ts (by simp) ?_ (by rw [hcls]; exact hrest)
          intro x hx
          cases List.mem_cons.mp hx with
          | inl h => rw [h, hcls]
          | inr h => rw [hall x h, hcls]
      · rw [if_neg hcls]
        refine Runs.cons _ [a] (t :: ts) (by simp) ?_ ?_
        · intro x hx
          have : x = a := by simpa using hx
          rw [this]
        · have hb : (!(pyIsSpace a)) = pyIsSpace b := by
            revert hcls
            cases pyIsSpace a <;> cases pyIsSpace b <;> simp
          rw [hb]
          exact ih

theorem groupRuns_append_run : ∀ (r l : Str) (b : Bool), r ≠ [] →
    (∀ c ∈ r, pyIsSpace c = b) →
    (∀ d, l.head? = some d → pyIsSpace d = !b) →
    groupRuns (r ++ l) = r :: groupRuns l
  | [], _, _, hne, _, _ => absurd rfl hne
  | [c], l, b, _, hall, hl => by
    cases l with
    | nil => simp [groupRuns]
    | cons d l2 =>
      rw [List.singleton_append, groupRuns_cons_cons]
      cases hgr : groupRuns (d :: l2) with
      | nil => rfl
      | cons t ts =>
        show (if pyIsSpace c = pyIsSpace d then (c :: t) :: ts
          else [c] :: t :: ts) = [c] :: t :: ts
        have hcd : ¬ pyIsSpace c = pyIsSpace d := by
          rw [hall c (List.mem_cons_self c []), hl d rfl]
          cases b <;> simp
        rw [if_neg hcd]
  | c1 :: c2 :: r2, l, b, _, hall, hl => by
    have ih := groupRuns_append_run (c2 :: r2) l b (by simp)
      (fun x hx => hall x (List.mem_cons_of_mem c1 hx)) hl
    rw [List.cons_append, show (c2 :: r2) ++ l = c2 :: (r2 ++ l) from rfl,
      groupRuns_cons_cons, show c2 :: (r2 ++ l) = (c2 :: r2) ++ l from rfl, ih]
    show (if pyIsSpace c1 = pyIsSpace c2 then (c1 :: c2 :: r2) :: groupRuns l
      else [c1] :: (c2 :: r2) :: groupRuns l) = (c1 :: c2 :: r2) :: groupRuns l
    rw [if_pos (by rw [hall c1 (List.mem_cons_self _ _),
      hall c2 (List.mem_cons_of_mem c1 (List.mem_cons_self _ _))])]

theorem flatten_head_class (rest : List Str) (b : Bool) (h : Runs b rest) :
    ∀ d, rest.flatten.head? = some d → pyIsSpace d = b := by
  cases h with
  | nil => intro d hd; simp at hd
  | cons b r rest2 hne hall hrest =>
    intro d hd
    match r, hne with
    | x :: xs, _ =>
      simp only [List.flatten_cons, List.cons_append, List.head?_cons,
        Option.some.injEq] at hd
      rw [← hd]
      exact hall x (List.mem_cons_self x xs)

theorem groupRuns_reconstruct (L : List Str) (b : Bool) (h : Runs b L) :
    groupRuns L.flatten = L := by
  induction h with
  | nil => rfl
  | cons b r rest hne hall hrest ih =>
    simp only [List.flatten_cons]
    rw [groupRuns_append_run r rest.flatten b hne hall
      (flatten_head_class rest (!b) hrest), ih]

theorem procToken_space {r : Str} (hne : r ≠ []) (hall : ∀ c ∈ r, pyIsSpace c = true) :
    procToken r = r := by
  unfold procToken
  rw [if_pos]
  simp only [pyIsSpaceStr, Bool.and_eq_true, decide_eq_true_eq, List.all_eq_true]
  exact ⟨hne, hall⟩

theorem isSpaceStr_false_of_word {r : Str} (hne : r ≠ [])
    (hall : ∀ c ∈ r, pyIsSpace c = false) : pyIsSpaceStr r = false := by
  match r, hne with
  | x :: xs, _ => simp [pyIsSpaceStr, hall x (List.mem_cons_self x xs)]

theorem runs_map_procToken (L : List Str) (b : Bool) (h : Runs b L) :
    Runs b (L.map procToken) := by
  induction h with
  | nil => exact Runs.nil _
  | cons b r rest hne hall hrest ih =>
    rw [List.map_cons]
    cases b with
    | true =>
      rw [procToken_space hne hall]
      exact Runs.cons _ r _ hne hall ih
    | false =>
      obtain ⟨hne2, hall2⟩ := procToken_word hne hall
      exact Runs.cons _ _ _ hne2 (fun c hc => hall2 c hc) ih

theorem filter_spaceStr_map_procToken (L : List Str) (b : Bool) (h : Runs b L) :
    (L.map procToken).filter pyIsSpaceStr = L.filter pyIsSpaceStr := by
  induction h with
  | nil => rfl
  | cons b r rest hne hall hrest ih =>
    rw [List.map_cons, List.filter_cons, List.filter_cons]
    cases b with
    | true =>
      rw [procToken_space hne hall]
      have hsp : pyIsSpaceStr r = true := by
        simp only [pyIsSpaceStr, Bool.and_eq_true, decide_eq_true_eq,
          List.all_eq_true]
        exact ⟨hne, hall⟩
      rw [hsp, if_pos rfl, if_pos rfl, ih]
    | false =>
      obtain ⟨hne2, hall2⟩ := procToken_word hne hall
      rw [isSpaceStr_false_of_word hne hall,
        isSpaceStr_false_of_word hne2 hall2]
      simpa using ih

/-- C8 counterexample: the casing normaliser strips the input first, so
the leading whitespace of the string " a" is lost: the output is "A" and
the whitespace runs of the output differ from those of the input. -/
theorem C8_counterexample :
    title_case_safe (strLit " a") = strLit "A" ∧
    wsRuns (title_case_safe (strLit " a")) ≠ wsRuns (strLit " a") :=
  ⟨by decide, by decide⟩

/-- C8 (amended): the casing normaliser preserves the whitespace layout of
the STRIPPED input exactly: the maximal whitespace runs of the output are,
in order and content, the whitespace runs of the stripped input.  Leading
and trailing whitespace of the raw input is removed by the initial strip,
so layout preservation holds only inside the trimmed string. -/
theorem C8_ws_runs_preserved (s : Str) :
    wsRuns (title_case_safe s) = wsRuns (pyStrip s) := by
  unfold title_case_safe
  by_cases h0 : pyStrip s = []
  · rw [h0]
    simp [wsRuns]
  · simp only [if_neg h0]
    obtain ⟨c, cs, hst⟩ : ∃ c cs, pyStrip s = c :: cs := by
      cases hh : pyStrip s with
      | nil => exact absurd hh h0
      | cons a b => exact ⟨a, b, rfl⟩
    rw [hst]
    have hruns := groupRuns_runs c cs
    unfold wsRuns
    rw [groupRuns_reconstruct ((groupRuns (c :: cs)).map procToken) _
      (runs_map_procToken _ _ hruns)]
    rw [filter_spaceStr_map_procToken _ _ hruns]

/-!
Idempotence machinery for the casing normaliser on ASCII strings.
-/

theorem not_ds_of_letter {d : Char}
    (h : (65 ≤ d.toNat ∧ d.toNat ≤ 90) ∨ (97 ≤ d.toNat ∧ d.toNat ≤ 122)) :
    isDashSlash d = false := by
  simp only [isDashSlash, Bool.or_eq_false_iff, decide_eq_false_iff_not]
  omega

theorem not_apos_of_letter {d : Char}
    (h : (65 ≤ d.toNat ∧ d.toNat ≤ 90) ∨ (97 ≤ d.toNat ∧ d.toNat ≤ 122)) :
    isAposChar d = false := by
  simp only [isAposChar, decide_eq_false_iff_not]
  omega

theorem inDashSlashStr_head {y : Str} (h : inDashSlashStr y = true) :
    y = [] ∨ ∃ d, y.head? = some d ∧ isDashSlash d = true := by
  simp only [inDashSlashStr, Bool.or_eq_true, decide_eq_true_eq] at h
  rcases h with ((h | h) | h) | h
  · exact Or.inl h
  · exact Or.inr ⟨Char.ofNat 45, by rw [h]; exact ⟨rfl, by decide⟩⟩
  · exact Or.inr ⟨Char.ofNat 47, by rw [h]; exact ⟨rfl, by decide⟩⟩
  · exact Or.inr ⟨Char.ofNat 45, by rw [h]; exact ⟨rfl, by decide⟩⟩

theorem capPart_chars {sp : Str} {d : Char} (hd : d ∈ capPart sp) :
    d ∈ sp ∨ (65 ≤ d.toNat ∧ d.toNat ≤ 90) ∨ (97 ≤ d.toNat ∧ d.toNat ≤ 122) := by
  unfold capPart at hd
  split at hd
  · exact Or.inl hd
  · split at hd
    · exact Or.inl hd
    · exact cap_segment_chars hd

theorem capPart_length_ascii {sp : Str} (ha : ∀ c ∈ sp, c.toNat < 128) :
    (capPart sp).length = sp.length := by
  unfold capPart
  split
  · rfl
  · split
    · rfl
    · exact cap_segment_length_ascii ha

theorem capPart_idem {sp : Str} (hds : ∀ c ∈ sp, isDashSlash c = false)
    (ha : ∀ c ∈ sp, c.toNat < 128) : capPart (capPart sp) = capPart sp := by
  by_cases h1 : inDashSlashStr sp = true
  · have e1 : capPart sp = sp := by unfold capPart; rw [if_pos h1]
    rw [e1]
    exact e1
  · by_cases h2 : (pyIsUpperStr sp && decide (sp.length ≤ 3)) = true
    · have e2 : capPart sp = sp := by unfold capPart; rw [if_neg h1, if_pos h2]
      rw [e2]
      exact e2
    · have e3 : capPart sp = cap_segment sp := by
        unfold capPart
        rw [if_neg h1, if_neg h2]
      by_cases h3 : pyIsUpperStr sp = true
      · have e4 : cap_segment sp = sp := by
          unfold cap_segment
          rw [if_neg (by rwa [show (pyIsUpperStr sp && decide (sp.length ≤ 3)) =
            (pyIsUpperStr sp && decide (sp.length ≤ 3)) from rfl]), if_pos h3]
        rw [e3, e4]
        rw [e3, e4]
      · obtain ⟨c, rest, hsp⟩ : ∃ c rest, sp = c :: rest := by
          cases hh : sp with
          | nil =>
            rw [hh] at h1
            exact absurd (by decide : inDashSlashStr [] = true) h1
          | cons a b => exact ⟨a, b, rfl⟩
        subst hsp
        have e5 : cap_segment (c :: rest) =
            asciiUpperCh c :: rest.map pyLowerChar := by
          unfold cap_segment
          rw [if_neg h2, if_neg h3]
          show pyUpperChar c ++ rest.map pyLowerChar =
            asciiUpperCh c :: rest.map pyLowerChar
          rw [pyUpperChar_ascii c (ha c (List.mem_cons_self _ _))]
          rfl
        rw [e3, e5]
        have hdsy : isDashSlash (asciiUpperCh c) = false := by
          cases upper_mem_range c (asciiUpperCh c)
            (by rw [pyUpperChar_ascii c (ha c (List.mem_cons_self _ _))]
                exact List.mem_cons_self _ _) with
          | inl he => rw [he]; exact hds c (List.mem_cons_self _ _)
          | inr hr => exact not_ds_of_letter (Or.inl hr)
        have hy1 : ¬ inDashSlashStr (asciiUpperCh c :: rest.map pyLowerChar) = true := by
          intro hcon
          cases inDashSlashStr_head hcon with
          | inl he => exact List.noConfusion he
          | inr he =>
            obtain ⟨d, hd1, hd2⟩ := he
            rw [List.head?_cons, Option.some.injEq] at hd1
            rw [← hd1] at hd2
            rw [hdsy] at hd2
            exact Bool.noConfusion hd2
        unfold capPart
        rw [if_neg hy1]
        by_cases h5 : (pyIsUpperStr (asciiUpperCh c :: rest.map pyLowerChar) &&
            decide ((asciiUpperCh c :: rest.map pyLowerChar).length ≤ 3)) = true
        · rw [if_pos h5]
        · rw [if_neg h5]
          unfold cap_segment
          rw [if_neg h5]
          by_cases h6 : pyIsUpperStr (asciiUpperCh c :: rest.map pyLowerChar) = true
          · rw [if_pos h6]
          · rw [if_neg h6]
            show pyUpperChar (asciiUpperCh c) ++
              (rest.map pyLowerChar).map pyLowerChar =
              asciiUpperCh c :: rest.map pyLowerChar
            rw [pyUpperChar_ascii _ (asciiUpperCh_ascii (ha c (List.mem_cons_self _ _))),
              asciiUpperCh_idem, List.map_map]
            rw [List.map_congr_left
              (fun x _ => show (pyLowerChar ∘ pyLowerChar) x = pyLowerChar x from
                pyLowerChar_idem x)]
            rfl

theorem altTail_members {p : Char → Bool} {rest : List Str} (h : AltTail p rest) :
    ∀ x ∈ rest, (∃ c, x = [c] ∧ p c = true) ∨ (∀ ch ∈ x, p ch = false) := by
  induction h with
  | nil => intro x hx; exact absurd hx (List.not_mem_nil x)
  | cons c s rest2 hc hs htail ih =>
    intro x hx
    rcases List.mem_cons.mp hx with he | hx2
    · exact Or.inl ⟨c, he, hc⟩
    · rcases List.mem_cons.mp hx2 with he | hx3
      · exact Or.inr (he ▸ hs)
      · exact ih x hx3

theorem ds_single {c : Char} (h : isDashSlash c = true) :
    inDashSlashStr [c] = true := by
  simp only [isDashSlash, Bool.or_eq_true, decide_eq_true_eq] at h
  cases h with
  | inl h45 =>
    have : c = Char.ofNat 45 := char_eq_of_toNat_eq (by rw [h45]; decide)
    rw [this]
    decide
  | inr h47 =>
    have : c = Char.ofNat 47 := char_eq_of_toNat_eq (by rw [h47]; decide)
    rw [this]
    decide

theorem capPart_sep {c : Char} (h : isDashSlash c = true) : capPart [c] = [c] := by
  unfold capPart
  rw [if_pos (ds_single h)]

theorem capPart_noDS {sp : Str} (h : ∀ c ∈ sp, isDashSlash c = false) :
    ∀ d ∈ capPart sp, isDashSlash d = false := by
  intro d hd
  cases capPart_chars hd with
  | inl hm => exact h d hm
  | inr hr => exact not_ds_of_letter hr

theorem altTail_map_capPart {rest : List Str} (h : AltTail isDashSlash rest) :
    AltTail isDashSlash (rest.map capPart) := by
  induction h with
  | nil => exact AltTail.nil
  | cons c s rest2 hc hs htail ih =>
    simp only [List.map_cons, capPart_sep hc]
    exact AltTail.cons c (capPart s) _ hc (capPart_noDS hs) ih

theorem capNonApos_split (s : Str) :
    splitKeep isDashSlash (capNonApos s) =
      (splitKeep isDashSlash s).map capPart := by
  obtain ⟨s0, rest, heq, hfree, htail⟩ := splitKeep_shape isDashSlash s
  have hbody : capNonApos s = capPart s0 ++ ((rest.map capPart).flatten) := by
    unfold capNonApos
    rw [heq, List.map_cons, List.flatten_cons]
  rw [hbody, heq, List.map_cons]
  exact splitKeep_reconstruct isDashSlash (rest.map capPart)
    (altTail_map_capPart htail) (capPart s0) (capPart_noDS hfree)

theorem capNonApos_idem {s : Str} (ha : ∀ c ∈ s, c.toNat < 128) :
    capNonApos (capNonApos s) = capNonApos s := by
  obtain ⟨s0, rest, heq, hfree, htail⟩ := splitKeep_shape isDashSlash s
  have hmap : ((splitKeep isDashSlash s).map capPart).map capPart =
      (splitKeep isDashSlash s).map capPart := by
    rw [List.map_map]
    apply List.map_congr_left
    intro x hx
    show capPart (capPart x) = capPart x
    rw [heq] at hx
    have hax : ∀ c ∈ x, c.toNat < 128 := fun c hc =>
      ha c (mem_splitKeep_mem isDashSlash (heq ▸ hx) hc)
    rcases List.mem_cons.mp hx with he | hx2
    · exact capPart_idem (he ▸ hfree) hax
    · cases altTail_members htail x hx2 with
      | inl hsep =>
        obtain ⟨c, hxc, hc⟩ := hsep
        rw [hxc, capPart_sep hc, capPart_sep hc]
      | inr hseg => exact capPart_idem hseg hax
  show ((splitKeep isDashSlash (capNonApos s)).map capPart).flatten = capNonApos s
  rw [capNonApos_split, hmap]
  rfl

theorem capNonApos_noApos {s : Str} (h : ∀ c ∈ s, isAposChar c = false) :
    ∀ d ∈ capNonApos s, isAposChar d = false := by
  intro d hd
  cases capNonApos_chars hd with
  | inl hm => exact h d hm
  | inr hr => exact not_apos_of_letter hr

theorem capNonApos_ascii {s : Str} (ha : ∀ c ∈ s, c.toNat < 128) :
    ∀ d ∈ capNonApos s, d.toNat < 128 := by
  intro d hd
  cases capNonApos_chars hd with
  | inl hm => exact ha d hm
  | inr hr => rcases hr with h | h <;> omega

theorem flatten_map_length_eq (f : Str → Str) : ∀ L : List Str,
    (∀ x ∈ L, (f x).length = x.length) →
    ((L.map f).flatten).length = L.flatten.length
  | [], _ => rfl
  | x :: L, h => by
    simp only [List.map_cons, List.flatten_cons, List.length_append]
    rw [h x (List.mem_cons_self x L),
      flatten_map_length_eq f L (fun y hy => h y (List.mem_cons_of_mem x hy))]

theorem capNonApos_length_ascii {s : Str} (ha : ∀ c ∈ s, c.toNat < 128) :
    (capNonApos s).length = s.length := by
  unfold capNonApos
  rw [flatten_map_length_eq capPart (splitKeep isDashSlash s)
    (fun x hx => capPart_length_ascii
      (fun c hc => ha c (mem_splitKeep_mem isDashSlash hx hc)))]
  rw [splitKeep_flatten]

theorem not_inDashSlash_single {c : Char} (h : isDashSlash c = false) :
    ¬ inDashSlashStr [c] = true := by
  intro hcon
  cases inDashSlashStr_head hcon with
  | inl he => exact List.noConfusion he
  | inr he =>
    obtain ⟨d, hd1, hd2⟩ := he
    rw [List.head?_cons, Option.some.injEq] at hd1
    rw [← hd1, h] at hd2
    exact Bool.noConfusion hd2

theorem lower_capNonApos_single (c : Char) (ha : c.toNat < 128) :
    pyLowerStr (capNonApos [c]) = pyLowerStr [c] := by
  by_cases hds : isDashSlash c = true
  · have hsplit : splitKeep isDashSlash [c] = [[], [c], []] := by
      simp [splitKeep, hds]
    have : capNonApos [c] = [c] := by
      unfold capNonApos
      rw [hsplit, List.map_cons, List.map_cons, List.map_cons]
      rw [show capPart [] = [] from by decide, capPart_sep hds]
      simp
    rw [this]
  · have hds2 : isDashSlash c = false := Bool.eq_false_iff.mpr hds
    have hsplit : splitKeep isDashSlash [c] = [[c]] :=
      splitKeep_seg_single isDashSlash [c]
        (fun x hx => by rw [show x = c from by simpa using hx]; exact hds2)
    have hcap : capNonApos [c] = capPart [c] := by
      unfold capNonApos
      rw [hsplit]
      simp
    rw [hcap]
    unfold capPart
    rw [if_neg (not_inDashSlash_single hds2)]
    by_cases h5 : (pyIsUpperStr [c] && decide (([c] : Str).length ≤ 3)) = true
    · rw [if_pos h5]
    · rw [if_neg h5]
      unfold cap_segment
      rw [if_neg h5]
      by_cases h6 : pyIsUpperStr [c] = true
      · rw [if_pos h6]
      · rw [if_neg h6]
        show pyLowerStr (pyUpperChar c ++ ([] : Str).map pyLowerChar) = pyLowerStr [c]
        rw [pyUpperChar_ascii c ha]
        show pyLowerStr [asciiUpperCh c] = pyLowerStr [c]
        unfold pyLowerStr
        rw [List.map_cons, List.map_cons, lower_upper]

theorem apSeg_idem {s : Str} (ha : ∀ c ∈ s, c.toNat < 128) :
    apSeg (apSeg s) = apSeg s := by
  by_cases h1 : pyLowerStr s = [Char.ofNat 115]
  · have e1 : apSeg s = [Char.ofNat 115] := by unfold apSeg; rw [if_pos h1]
    rw [e1]
    decide
  · have e2 : apSeg s = capNonApos s := by
      unfold apSeg
      rw [if_neg h1, capApos_eq_capNonApos]
    have h2 : ¬ pyLowerStr (capNonApos s) = [Char.ofNat 115] := by
      intro hcon
      have hlen := congrArg List.length hcon
      simp only [pyLowerStr, List.length_map, List.length_cons,
        List.length_nil] at hlen
      rw [capNonApos_length_ascii ha] at hlen
      obtain ⟨a, hsa⟩ := List.length_eq_one.mp hlen
      subst hsa
      rw [lower_capNonApos_single a (ha a (List.mem_cons_self a []))] at hcon
      exact h1 hcon
    rw [e2]
    unfold apSeg
    rw [if_neg h2, capApos_eq_capNonApos]
    exact capNonApos_idem ha

theorem apSeg_noApos {s : Str} (h : ∀ c ∈ s, isAposChar c = false) :
    ∀ d ∈ apSeg s, isAposChar d = false := by
  intro d hd
  unfold apSeg at hd
  split at hd
  · rw [show d = Char.ofNat 115 from by simpa using hd]
    decide
  · rw [capApos_eq_capNonApos] at hd
    exact capNonApos_noApos h d hd

theorem procTailNF_altTail {rest : List Str} (h : AltTail isAposChar rest) :
    AltTail isAposChar (procTailNF rest) := by
  induction h with
  | nil => exact AltTail.nil
  | cons c s rest2 hc hs htail ih =>
    show AltTail isAposChar ([c] :: apSeg s :: procTailNF rest2)
    exact AltTail.cons c (apSeg s) _ hc (apSeg_noApos hs) ih

theorem procTailNF_idem {rest : List Str} (h : AltTail isAposChar rest)
    (ha : ∀ c ∈ rest.flatten, c.toNat < 128) :
    procTailNF (procTailNF rest) = procTailNF rest := by
  induction h with
  | nil => rfl
  | cons c s rest2 hc hs htail ih =>
    show procTailNF ([c] :: apSeg s :: procTailNF rest2) =
      [c] :: apSeg s :: procTailNF rest2
    show [c] :: apSeg (apSeg s) :: procTailNF (procTailNF rest2) = _
    have has : ∀ x ∈ s, x.toNat < 128 := fun x hx =>
      ha x (by
        simp only [List.flatten_cons, List.singleton_append, List.mem_cons,
          List.mem_append]
        exact Or.inr (Or.inl hx))
    rw [apSeg_idem has, ih (fun x hx => ha x (by
      simp only [List.flatten_cons, List.singleton_append, List.mem_cons,
        List.mem_append]
      exact Or.inr (Or.inr hx)))]

theorem procToken_word_nf {t : Str} (hword : ∀ c ∈ t, pyIsSpace c = false)
    (htne : t ≠ []) {s0 : Str} {rest : List Str}
    (heq : splitKeep isAposChar t = s0 :: rest) :
    procToken t = capNonApos s0 ++ (procTailNF rest).flatten := by
  obtain ⟨s0x, restx, heqx, hfreex, htailx⟩ := splitKeep_shape isAposChar t
  rw [heqx] at heq
  obtain ⟨he1, he2⟩ := List.cons.inj heq
  subst he1
  subst he2
  unfold procToken
  rw [isSpaceStr_false_of_word htne hword]
  simp only [Bool.false_eq_true, if_false]
  rw [heqx]
  exact processAposParts_head _ _ hfreex htailx

theorem procToken_idem_word {t : Str} (htne : t ≠ [])
    (hword : ∀ c ∈ t, pyIsSpace c = false) (ha : ∀ c ∈ t, c.toNat < 128) :
    procToken (procToken t) = procToken t := by
  obtain ⟨s0, rest, heq, hfree, htail⟩ := splitKeep_shape isAposChar t
  have hfl : s0 ++ rest.flatten = t := by
    have := splitKeep_flatten isAposChar t
    rw [heq] at this
    simpa [List.flatten_cons] using this
  have has0 : ∀ c ∈ s0, c.toNat < 128 := fun c hc =>
    ha c (by rw [← hfl]; exact List.mem_append.mpr (Or.inl hc))
  have harest : ∀ c ∈ rest.flatten, c.toNat < 128 := fun c hc =>
    ha c (by rw [← hfl]; exact List.mem_append.mpr (Or.inr hc))
  have hy : procToken t = capNonApos s0 ++ (procTailNF rest).flatten :=
    procToken_word_nf hword htne heq
  obtain ⟨hyne, hynospace⟩ := procToken_word htne hword
  have hsplit2 : splitKeep isAposChar (procToken t) =
      capNonApos s0 :: procTailNF rest := by
    rw [hy]
    exact splitKeep_reconstruct isAposChar (procTailNF rest)
      (procTailNF_altTail htail) (capNonApos s0) (capNonApos_noApos hfree)
  have h2 : procToken (procToken t) =
      capNonApos (capNonApos s0) ++ (procTailNF (procTailNF rest)).flatten := by
    have e : procToken (procToken t) =
        if pyIsSpaceStr (procToken t) = true then procToken t
        else processAposParts (splitKeep isAposChar (procToken t)) := rfl
    rw [e, isSpaceStr_false_of_word hyne hynospace]
    simp only [Bool.false_eq_true, if_false]
    rw [hsplit2]
    exact processAposParts_head (capNonApos s0) (procTailNF rest)
      (capNonApos_noApos hfree) (procTailNF_altTail htail)
  rw [h2, capNonApos_idem has0, procTailNF_idem htail harest, ← hy]

theorem pyStrip_eq_rdrop (s : Str) :
    pyStrip s = List.rdropWhile pyIsSpace (s.dropWhile pyIsSpace) := rfl

theorem pyStrip_head_ns {s : Str} {c : Char} {cs : Str}
    (h : pyStrip s = c :: cs) : pyIsSpace c = false := by
  obtain ⟨t, ht⟩ :=
    List.rdropWhile_prefix pyIsSpace (s.dropWhile pyIsSpace)
  rw [← pyStrip_eq_rdrop, h] at ht
  have hhead := List.head?_dropWhile_not pyIsSpace s
  rw [← ht] at hhead
  simpa using hhead

theorem pyStrip_last_ns (s : Str) :
    ∀ d, (pyStrip s).getLast? = some d → pyIsSpace d = false := by
  intro d hd
  have hne : pyStrip s ≠ [] := by
    intro he
    rw [he] at hd
    exact Option.noConfusion hd
  have hd2 : d = (pyStrip s).getLast hne := by
    rw [List.getLast?_eq_getLast _ hne, Option.some.injEq] at hd
    exact hd.symm
  rw [hd2]
  exact Bool.eq_false_iff.mpr
    (List.rdropWhile_last_not pyIsSpace (s.dropWhile pyIsSpace) hne)

theorem mem_pyStrip {s : Str} {c : Char} (h : c ∈ pyStrip s) : c ∈ s := by
  obtain ⟨t, ht⟩ :=
    List.rdropWhile_prefix pyIsSpace (s.dropWhile pyIsSpace)
  rw [← pyStrip_eq_rdrop] at ht
  have h1 : c ∈ s.dropWhile pyIsSpace := by
    rw [← ht]
    exact List.mem_append.mpr (Or.inl h)
  exact (List.dropWhile_sublist pyIsSpace).subset h1

theorem runs_members {b : Bool} {L : List Str} (h : Runs b L) :
    ∀ r ∈ L, r ≠ [] ∧ ∃ b2, ∀ c ∈ r, pyIsSpace c = b2 := by
  induction h with
  | nil => intro r hr; exact absurd hr (List.not_mem_nil r)
  | cons b r2 rest hne hall hrest ih =>
    intro r hr
    cases List.mem_cons.mp hr with
    | inl he => exact he ▸ ⟨hne, b, hall⟩
    | inr hm => exact ih r hm

theorem runs_flatten_last_class {b : Bool} {L : List Str} (h : Runs b L) :
    ∀ d e, ((L.map procToken).flatten).getLast? = some d →
      (L.flatten).getLast? = some e → pyIsSpace d = pyIsSpace e := by
  induction h with
  | nil =>
    intro d e hd _
    simp at hd
  | cons b r rest hne hall hrest ih =>
    intro d e hd he
    cases rest with
    | nil =>
      simp only [List.map_cons, List.map_nil, List.flatten_cons,
        List.flatten_nil, List.append_nil] at hd he
      cases b with
      | true =>
        rw [procToken_space hne hall] at hd
        rw [hd] at he
        rw [Option.some.injEq] at he
        rw [he]
      | false =>
        obtain ⟨_, hnospace⟩ := procToken_word hne hall
        rw [hnospace d (List.mem_of_mem_getLast? hd),
          hall e (List.mem_of_mem_getLast? he)]
    | cons r2 rest2 =>
      cases hrest with
      | cons _ _ _ hne2 hall2 hrest2 =>
        have hflne : (r2 :: rest2).flatten ≠ [] := by
          match r2, hne2 with
          | x :: xs, _ => simp [List.flatten_cons]
        have hflne2 : ((r2 :: rest2).map procToken).flatten ≠ [] := by
          have hpne : procToken r2 ≠ [] := by
            cases b with
            | false =>
              rw [procToken_space hne2 (by simpa using hall2)]
              exact hne2
            | true => exact (procToken_word hne2 (by simpa using hall2)).1
          match hp : procToken r2, hpne with
          | x :: xs, _ => simp [List.flatten_cons, hp]
        rw [List.map_cons, List.flatten_cons,
          List.getLast?_append_of_ne_nil _ hflne2] at hd
        rw [List.flatten_cons, List.getLast?_append_of_ne_nil _ hflne] at he
        exact ih d e hd he

/-- C9 counterexample: the casing normaliser is not idempotent on the
two-character string made of U+00DF (lowercase sharp s, whose Python
uppercase form is the two-letter string SS) and the letter a: one
application gives SSa, a second application gives Ssa. -/
theorem C9_counterexample :
    title_case_safe [eszett, Char.ofNat 97] =
      [Char.ofNat 83, Char.ofNat 83, Char.ofNat 97] ∧
    title_case_safe (title_case_safe [eszett, Char.ofNat 97]) ≠
      title_case_safe [eszett, Char.ofNat 97] := by
  constructor
  · decide
  · decide

/-- C9 (amended): the casing normaliser is idempotent on every string of
ASCII characters: applying it twice gives the same result as applying it
once.  Full idempotence over all strings fails because the uppercase
mapping of U+00DF expands to two letters. -/
theorem C9_title_idempotent_ascii (s : Str) (ha : ∀ c ∈ s, c.toNat < 128) :
    title_case_safe (title_case_safe s) = title_case_safe s := by
  by_cases h0 : pyStrip s = []
  · have e : title_case_safe s = [] := by
      unfold title_case_safe
      rw [h0]
      simp
    rw [e]
    decide
  · obtain ⟨c, cs, hst⟩ : ∃ c cs, pyStrip s = c :: cs := by
      cases hh : pyStrip s with
      | nil => exact absurd hh h0
      | cons a b => exact ⟨a, b, rfl⟩
    have hcns : pyIsSpace c = false := pyStrip_head_ns hst
    have hru0 : Runs false (groupRuns (c :: cs)) := by
      have := groupRuns_runs c cs
      rwa [hcns] at this
    have hruns2 : Runs false ((groupRuns (c :: cs)).map procToken) :=
      runs_map_procToken _ _ hru0
    have e1 : title_case_safe s =
        ((groupRuns (c :: cs)).map procToken).flatten := by
      unfold title_case_safe
      rw [hst]
      rw [if_neg (by simp : ¬ (c :: cs : Str) = [])]
    have hyheadns := flatten_head_class _ false hruns2
    have hylastns : ∀ d,
        (((groupRuns (c :: cs)).map procToken).flatten).getLast? = some d →
        pyIsSpace d = false := by
      intro d hd
      have hstne : (c :: cs : Str) ≠ [] := by simp
      obtain ⟨e, he⟩ : ∃ e, (c :: cs : Str).getLast? = some e :=
        ⟨(c :: cs).getLast hstne, List.getLast?_eq_getLast _ hstne⟩
      have hens : pyIsSpace e = false :=
        pyStrip_last_ns s e (by rw [hst]; exact he)
      have hflat : (groupRuns (c :: cs)).flatten = c :: cs :=
        groupRuns_flatten _
      have hcls := runs_flatten_last_class hru0 d e hd (by rw [hflat]; exact he)
      rw [hcls, hens]
    have hystrip := pyStrip_eq_self _ hyheadns hylastns
    have hyne : ((groupRuns (c :: cs)).map procToken).flatten ≠ [] := by
      cases hL : groupRuns (c :: cs) with
      | nil =>
        have := groupRuns_flatten (c :: cs)
        rw [hL] at this
        simp at this
      | cons r0 rest0 =>
        rw [hL] at hru0
        cases hru0 with
        | cons _ _ _ hne0 hall0 _ =>
          have hpne : procToken r0 ≠ [] := (procToken_word hne0 hall0).1
          match hp : procToken r0, hpne with
          | x :: xs, _ => simp [List.map_cons, List.flatten_cons, hp]
    rw [e1]
    unfold title_case_safe
    rw [hystrip, if_neg hyne, groupRuns_reconstruct _ false hruns2,
      List.map_map]
    have hpt : ∀ r ∈ groupRuns (c :: cs),
        (procToken ∘ procToken) r = procToken r := by
      intro r hr
      obtain ⟨hrne, b2, hclass⟩ := runs_members hru0 r hr
      show procToken (procToken r) = procToken r
      cases b2 with
      | true =>
        have e2 := procToken_space hrne hclass
        rw [e2]
        exact e2
      | false =>
        have har : ∀ x ∈ r, x.toNat < 128 := by
          intro x hx
          apply ha
          apply mem_pyStrip
          rw [hst, ← groupRuns_flatten (c :: cs)]
          exact List.mem_flatten.mpr ⟨r, hr, hx⟩
        exact procToken_idem_word hrne hclass har
    rw [List.map_congr_left hpt]

theorem C9_witness :
    (∀ c ∈ strLit "o-NEIL and ABCD x", c.toNat < 128) ∧
    title_case_safe (title_case_safe (strLit "o-NEIL and ABCD x")) =
      title_case_safe (strLit "o-NEIL and ABCD x") :=
  ⟨by decide, C9_title_idempotent_ascii (strLit "o-NEIL and ABCD x") (by decide)⟩
